import Mathlib

/-!
Verification of the diff-record parser, name interner, working-directory
synthesizer and commit-stream decoder of GitQlient (`src/app/git.cpp`).

Strings are modelled as `List Char` (a `QString` is a sequence of UTF-16
code units; the code only ever compares, slices and searches them, so a
plain character list is a faithful carrier).  `QString::at`/`operator[]`
requires `0 <= i < size()`; an access outside that range is undefined
behaviour, which the embedding models as `Option` failure (`qAt`).
Bounds-safe `QString` operations (`mid`, `left`, `section`, `split`,
`lastIndexOf`) are total and modelled by total functions.

The class `RevisionFile` and the per-commit status helpers
(`setStatus`, `appendStatus`, `statusCmp`, `appendExtStatus`, `count`,
`dirAt`, `nameAt`) live in a header that is not part of this repository
snapshot; they are modelled from the spec (sections 3 and 6), see the
doc comments below.  Everything else is translated from
`src/app/git.cpp`.
-/

namespace GitQlient

/-- `QString` carrier. -/
abbrev QStr := List Char

/-- Shorthand for turning a string literal into the `QStr` carrier. -/
def str (s : String) : QStr := s.toList

/-- `QString::at(i)` / `operator[](i)`: defined only for `0 <= i < size()`
(Qt asserts this); any other access is undefined behaviour and is modelled
as `none`. -/
def qAt (s : QStr) (i : Nat) : Option Char := s.get? i

/-- Index of the first `'\n'` in a character list (`QString::indexOf('\n')`
restricted to the searched suffix); `none` when there is no newline. -/
def findNL : QStr → Option Nat
  | [] => none
  | c :: cs => if c = '\n' then some 0 else (findNL cs).map (· + 1)

/-- `name.lastIndexOf('/') + 1`: one past the position of the last slash,
`0` when there is no slash (`lastIndexOf` returns `-1` then). -/
def lastIndexOfP1 : QStr → Nat
  | [] => 0
  | c :: cs =>
    let r := lastIndexOfP1 cs
    if r = 0 then (if c = '/' then 1 else 0) else r + 1

/-- First index of `x` in a list of strings; models the `QHash` lookups
`mDirNamesMap`/`mFileNamesMap`, which the code keeps in sync with the
tables `mDirNames`/`mFileNames` (the hash always maps a string to its
first, unique, position in the table). -/
def idxOf? (x : QStr) : List QStr → Option Nat
  | [] => none
  | y :: ys => if y = x then some 0 else (idxOf? x ys).map (· + 1)

/-- `split(sep)` keeping empty parts (`QString::split` default /
`QByteArray::split`). -/
def splitAll (sep : Char) : QStr → List QStr
  | [] => [[]]
  | c :: cs =>
    if c = sep then [] :: splitAll sep cs
    else
      match splitAll sep cs with
      | [] => [[c]]
      | p :: ps => (c :: p) :: ps

/-- `split(sep, QString::SkipEmptyParts)`. -/
def splitSkipEmpty (sep : Char) (s : QStr) : List QStr :=
  (splitAll sep s).filter (· ≠ [])

/-- `QString::section('\t', -1)`: the last tab-separated section (empty
sections count under the default section flags). -/
def lastSection (s : QStr) : QStr := (splitAll '\t' s).getLastD []

/-- `QString::toInt()` for the non-negative inputs that occur here: the
numeric value when the string is a non-empty digit string, `0` otherwise
(`toInt` yields `0` on parse failure). -/
def toIntQ (s : QStr) : Nat :=
  if s ≠ [] ∧ s.all Char.isDigit then
    s.foldl (fun a c => a * 10 + (c.toNat - 48)) 0
  else 0

/-- `QString::number` on the (non-negative) similarity value. -/
def numberQ (n : Nat) : QStr := Nat.toDigits 10 n

/-! ## Status flags

Modelled from the spec (section 3): a one-character status code
(Modified / Added / Deleted / New / Unknown) with two orthogonal,
bitwise-combinable flags (Conflict, In-Index).  The numeric values are
arbitrary distinct bits; `src/app/git.cpp` only names them. -/

def MODIFIED : Nat := 1
def DELETED : Nat := 2
def NEW : Nat := 4
def UNKNOWN : Nat := 8
def IN_INDEX : Nat := 16
def CONFLICT : Nat := 32

/-- Modelled from the spec: `RevisionFile` (its header is not part of the
snapshot).  `status` is the per-entry status bitmask, `onlyModified` the
fast-path flag, `extStatus` the rename/copy display strings,
`mergeParent` the per-entry parent index, and `pathsIdx` the packed
storage written by `Git::flushFileNames` (first the directory indices,
then the file-name indices, one `int` each). -/
structure RevisionFile where
  status : List Nat
  onlyModified : Bool
  extStatus : List QStr
  mergeParent : List Nat
  pathsIdx : List Nat
deriving DecidableEq

/-- The freshly constructed `RevisionFile()`. -/
def emptyRF : RevisionFile := ⟨[], true, [], [], []⟩

/-- Modelled from the spec: `count()`, the number of packed entries. -/
def count (rf : RevisionFile) : Nat := rf.pathsIdx.length / 2

/-- Modelled from the spec: `dirAt(i)`, the packed directory index. -/
def dirAt (rf : RevisionFile) (i : Nat) : Nat := rf.pathsIdx.getD i 0

/-- Modelled from the spec: `nameAt(i)`, the packed file-name index. -/
def nameAt (rf : RevisionFile) (i : Nat) : Nat :=
  rf.pathsIdx.getD (count rf + i) 0

/-- Modelled from the spec: decoding of a one-character status code from
diff output (`M` Modified, `A` Added/New, `D` Deleted, `U` unmerged =
Modified with the Conflict flag, anything else treated as Modified). -/
def charStatus (c : Char) : Nat :=
  if c = 'M' then MODIFIED
  else if c = 'A' then NEW
  else if c = 'D' then DELETED
  else if c = 'U' then MODIFIED ||| CONFLICT
  else MODIFIED

/-- Modelled from the spec: `setStatus(flag)` appends one status entry;
`onlyModified` stays true until an entry other than plain Modified is
appended (spec sections 3 and 8). -/
def setStatusFlag (rf : RevisionFile) (f : Nat) : RevisionFile :=
  { rf with
    status := rf.status ++ [f]
    onlyModified := rf.onlyModified && (f == MODIFIED) }

/-- Modelled from the spec: `setStatus(c)` for a status character. -/
def setStatusChar (rf : RevisionFile) (c : Char) : RevisionFile :=
  setStatusFlag rf (charStatus c)

/-- `setOnlyModified`. -/
def setOnlyModified (rf : RevisionFile) (b : Bool) : RevisionFile :=
  { rf with onlyModified := b }

/-- Modelled from the spec: `appendStatus(i, f)` ORs the flag `f` onto the
status of entry `i` (bitwise-combinable flags, spec section 4.4). -/
def appendStatus (rf : RevisionFile) (i : Nat) (f : Nat) : RevisionFile :=
  { rf with status := rf.status.set i ((rf.status.getD i 0) ||| f) }

/-- Modelled from the spec: `statusCmp(i, f)` tests the flag `f` on the
status of entry `i`. -/
def statusCmp (rf : RevisionFile) (i : Nat) (f : Nat) : Bool :=
  ((rf.status.getD i 0) &&& f) != 0

/-- `rf.mergeParent.append(p)`. -/
def appendMergeParent (rf : RevisionFile) (p : Nat) : RevisionFile :=
  { rf with mergeParent := rf.mergeParent ++ [p] }

/-- Modelled from the spec: `appendExtStatus(e)` records the extended
status of the entry just appended; the list is padded so that the string
sits at the position of the latest copied/renamed entry (see the comment
in `Git::setExtStatus`). -/
def appendExtStatus (rf : RevisionFile) (e : QStr) : RevisionFile :=
  { rf with
    extStatus :=
      (rf.extStatus ++ List.replicate (rf.status.length - 1 - rf.extStatus.length) [])
        ++ [e] }

/-! ## The parse-session state

`Git` owns the interning tables `mDirNames`/`mFileNames` (with their hash
maps, see `idxOf?`) and at most two `RevisionFile`s are ever being built
through one `FileNamesLoader` (`Git::fakeWorkDirRevFile` builds the
working-directory file and the cached file); the loader's `rf` pointer is
modelled as an optional tag naming which of the two it is bound to. -/

inductive RfTag where
  | main : RfTag
  | cached : RfTag
deriving DecidableEq

structure Session where
  dirNames : List QStr
  fileNames : List QStr
  rfMain : RevisionFile
  rfCached : RevisionFile
  flBound : Option RfTag
  flDirs : List Nat
  flNames : List Nat
deriving DecidableEq

/-- A fresh session: the carried interner tables plus a fresh
`FileNamesLoader` and fresh `RevisionFile`s. -/
def mkSession (dn fn : List QStr) : Session :=
  ⟨dn, fn, emptyRF, emptyRF, none, [], []⟩

def getRf (s : Session) (t : RfTag) : RevisionFile :=
  match t with
  | .main => s.rfMain
  | .cached => s.rfCached

def modifyRf (s : Session) (t : RfTag) (f : RevisionFile → RevisionFile) : Session :=
  match t with
  | .main => { s with rfMain := f s.rfMain }
  | .cached => { s with rfCached := f s.rfCached }

/-- `Git::flushFileNames` (git.cpp:1223): when the loader is bound, packs
the buffered directory indices followed by the buffered file-name indices
into its owner's `pathsIdx` as one contiguous block (the loop writes
`d[i] = dirs.at(i)` and `d[n+i] = rfNames.at(i)` for `i < n = dirs.size()`),
then clears the buffers and unbinds. -/
def flushFileNames (s : Session) : Session :=
  match s.flBound with
  | none => s
  | some t =>
    let packed := s.flDirs ++ s.flNames.take s.flDirs.length
    let s' := modifyRf s t (fun rf => { rf with pathsIdx := packed })
    { s' with flDirs := [], flNames := [], flBound := none }

/-- First half of `Git::appendFileName` (git.cpp:1248): if the loader is
bound to a different `RevisionFile` (pointer comparison `fl.rf != &rf`),
flush it, then bind it to the new target. -/
def bindLoader (s : Session) (t : RfTag) : Session :=
  if s.flBound ≠ some t then
    let s' := flushFileNames s
    { s' with flBound := some t }
  else s

/-- Directory-key half of `Git::appendFileName` (git.cpp:1257): look the
directory up in the table, appending it when absent, and buffer its
index. -/
def internDir (s : Session) (dr : QStr) : Session :=
  match idxOf? dr s.dirNames with
  | none =>
    { s with
      dirNames := s.dirNames ++ [dr]
      flDirs := s.flDirs ++ [s.dirNames.length] }
  | some i => { s with flDirs := s.flDirs ++ [i] }

/-- File-key half of `Git::appendFileName` (git.cpp:1268). -/
def internFile (s : Session) (nm : QStr) : Session :=
  match idxOf? nm s.fileNames with
  | none =>
    { s with
      fileNames := s.fileNames ++ [nm]
      flNames := s.flNames ++ [s.fileNames.length] }
  | some i => { s with flNames := s.flNames ++ [i] }

/-- `Git::appendFileName` (git.cpp:1246): rebind/flush the loader if
needed, split the name at the last `/` (directory key keeps the slash,
empty when there is none), and intern both halves.  There is no check for
an empty `name`. -/
def appendFileName (s : Session) (t : RfTag) (name : QStr) : Session :=
  let s' := bindLoader s t
  let idx := lastIndexOfP1 name
  internFile (internDir s' (name.take idx)) (name.drop idx)

/-- `Git::filePath` (git.cpp:114): recombine the interned directory and
file name of entry `i`. -/
def filePath (s : Session) (rf : RevisionFile) (i : Nat) : QStr :=
  s.dirNames.getD (dirAt rf i) [] ++ s.fileNames.getD (nameAt rf i) []

/-- `Git::findFileIndex` (git.cpp:135): `-1` for an empty name, otherwise
the first entry whose interned file name and directory match the split
name, `-1` when there is none. -/
def findFileIndex (s : Session) (rf : RevisionFile) (name : QStr) : Int :=
  if name = [] then -1
  else
    let idx := lastIndexOfP1 name
    let dr := name.take idx
    let nm := name.drop idx
    match (List.range (count rf)).find?
        (fun i => (s.fileNames.getD (nameAt rf i) [] == nm)
          && (s.dirNames.getD (dirAt rf i) [] == dr)) with
    | some i => (i : Int)
    | none => -1

/-- `Git::setExtStatus` (git.cpp:998): slow-path (rename/copy) handling of
the tail of a change line.  Drops the line unless it splits into exactly
three tab-separated fields; strips the first character of the status
token (`type.remove(0, 1)`) before building the display string; appends
the destination as a New entry; appends the origin as a Deleted entry
only when `type.at(0) == 'R'` — note that `type` has already been
stripped at that point, so this compares the first similarity digit. -/
def setExtStatus (s : Session) (t : RfTag) (rowSt : QStr) (parNum : Nat) :
    Option Session :=
  let sl := splitSkipEmpty '\t' rowSt
  if sl.length ≠ 3 then some s
  else
    let ty := (sl.getD 0 []).drop 1
    let orig := sl.getD 1 []
    let dest := sl.getD 2 []
    let extStatusInfo :=
      orig ++ str " --> " ++ dest ++ str " (" ++ numberQ (toIntQ ty) ++ str "%)"
    let s1 := appendFileName s t dest
    let s2 := modifyRf s1 t (fun rf => appendMergeParent rf parNum)
    let s3 := modifyRf s2 t (fun rf => setStatusFlag rf NEW)
    let s4 := modifyRf s3 t (fun rf => appendExtStatus rf extStatusInfo)
    match qAt ty 0 with
    | none => none
    | some c0 =>
      let s8 :=
        if c0 = 'R' then
          let s5 := appendFileName s4 t orig
          let s6 := modifyRf s5 t (fun rf => appendMergeParent rf parNum)
          let s7 := modifyRf s6 t (fun rf => setStatusFlag rf DELETED)
          modifyRf s7 t (fun rf => appendExtStatus rf extStatusInfo)
        else s4
      some (modifyRf s8 t (fun rf => setOnlyModified rf false))

/-- `Git::parseDiffFormatLine` (git.cpp:969): combined-merge lines (second
character `:`) take the text after the last tab as path and are treated
as Modified; otherwise the fixed fast-path offset 98 is read — with no
preceding length check — and a tab there means status at offset 97 and
path from offset 99, anything else falls to `setExtStatus` on the tail
from offset 97. -/
def parseDiffFormatLine (s : Session) (t : RfTag) (line : QStr) (parNum : Nat) :
    Option Session :=
  match qAt line 1 with
  | none => none
  | some c1 =>
    if c1 = ':' then
      let s1 := appendFileName s t (lastSection line)
      let s2 := modifyRf s1 t (fun rf => setStatusChar rf 'M')
      some (modifyRf s2 t (fun rf => appendMergeParent rf parNum))
    else
      match qAt line 98 with
      | none => none
      | some c98 =>
        if c98 = '\t' then
          match qAt line 97 with
          | none => none
          | some c97 =>
            let s1 := appendFileName s t (line.drop 99)
            let s2 := modifyRf s1 t (fun rf => setStatusChar rf c97)
            some (modifyRf s2 t (fun rf => appendMergeParent rf parNum))
        else setExtStatus s t (line.drop 97) parNum

/-- The loop of `Git::parseDiffFormat` (git.cpp:1040), written against the
remaining suffix of the buffer: `m` is the relative position the newline
search starts from (`0` for the very first search, `98` afterwards —
the code searches from `endPos + 99` absolute), the extracted line is
everything before the found newline, and lines starting with `:` are
parsed while any other line bumps the parent counter.  The fuel is an
upper bound on the number of iterations; `parseDiffFormat` supplies
enough for the loop to run to completion. -/
def parseLoopF (t : RfTag) :
    Nat → Session → Nat → Nat → QStr → Option (Session × Nat)
  | 0, _, _, _, _ => none
  | fuel + 1, s, parNum, m, rest =>
    match findNL (rest.drop m) with
    | none => some (s, parNum)
    | some j =>
      let e := m + j
      let line := rest.take e
      match qAt line 0 with
      | none => none
      | some c0 =>
        if c0 = ':' then
          match parseDiffFormatLine s t line parNum with
          | none => none
          | some s' => parseLoopF t fuel s' parNum 98 (rest.drop (e + 1))
        else parseLoopF t fuel s (parNum + 1) 98 (rest.drop (e + 1))

/-- `Git::parseDiffFormat` (git.cpp:1038): parent counter starts at 1,
first newline search starts at position 0.  The final parent counter is
returned alongside the session. -/
def parseDiffFormat (s : Session) (t : RfTag) (buf : QStr) :
    Option (Session × Nat) :=
  parseLoopF t (buf.length + 1) s 1 0 buf

/-- `Git::insertNewFiles` (git.cpp:254): parse one diff blob into a fresh
`RevisionFile` with a fresh loader, flush, and hand the result to the
cache (the cache insertion itself is outside this core). -/
def insertNewFiles (dn fn : List QStr) (data : QStr) : Option RevisionFile :=
  (parseDiffFormat (mkSession dn fn) .main data).map
    (fun r => (flushFileNames r.1).rfMain)

structure WorkingDirInfo where
  diffIndex : QStr
  diffIndexCached : QStr
  otherFiles : List QStr
deriving DecidableEq

/-- One iteration of the merge loop at the end of `Git::fakeWorkDirRevFile`
(git.cpp:908): when the baseline entry's path occurs anywhere in the
cached parse, OR the Conflict flag onto the baseline entry if
`cachedFiles.statusCmp(i, CONFLICT)` holds — the code indexes the cached
file with the baseline position `i`, not with the index `findFileIndex`
just computed — and unconditionally OR the In-Index flag on. -/
def mergeStep (s : Session) (i : Nat) : Session :=
  if findFileIndex s s.rfCached (filePath s s.rfMain i) ≠ -1 then
    let s1 :=
      if statusCmp s.rfCached i CONFLICT then
        modifyRf s .main (fun rf => appendStatus rf i CONFLICT)
      else s
    modifyRf s1 .main (fun rf => appendStatus rf i IN_INDEX)
  else s

/-- `Git::fakeWorkDirRevFile` (git.cpp:890), returning the whole final
session (`rfMain` is the synthesized working-directory file, `rfCached`
the staged parse): parse the diff-index baseline, clear `onlyModified`,
append every untracked file as Unknown with parent 1, parse the cached
diff-index through the same loader, flush, and run the merge loop over
the baseline entries. -/
def fakeWorkDirFull (dn fn : List QStr) (wd : WorkingDirInfo) : Option Session := do
  let r1 ← parseDiffFormat (mkSession dn fn) .main wd.diffIndex
  let s2 := modifyRf r1.1 .main (fun rf => setOnlyModified rf false)
  let s3 := wd.otherFiles.foldl
    (fun s it =>
      let sa := appendFileName s .main it
      let sb := modifyRf sa .main (fun rf => setStatusFlag rf UNKNOWN)
      modifyRf sb .main (fun rf => appendMergeParent rf 1)) s2
  let r4 ← parseDiffFormat s3 .cached wd.diffIndexCached
  let s5 := flushFileNames r4.1
  pure ((List.range (count s5.rfMain)).foldl mergeStep s5)

/-- The `RevisionFile` returned by `Git::fakeWorkDirRevFile`. -/
def fakeWorkDirRevFile (dn fn : List QStr) (wd : WorkingDirInfo) :
    Option RevisionFile :=
  (fakeWorkDirFull dn fn wd).map (·.rfMain)

/-! ## Commit-stream decoder -/

/-- An insertion into the revision cache, in order: the synthetic
working-directory pseudo-commit (inserted by `updateWipRevision`, which
shells out to git and is therefore represented by this single event), or
one decoded commit record with its 1-based order index. -/
inductive CacheEvent where
  | wip : CacheEvent
  | commit : QStr → Nat → CacheEvent
deriving DecidableEq

/-- The insertion loop of `Git::processRevision` (git.cpp:1208): records
in order, each numbered by the running `count`, stopping at the first
record whose `CommitInfo` fails validation (`break`). -/
def insertLoop (isValidC : QStr → Bool) : List QStr → Nat → List CacheEvent
  | [], _ => []
  | r :: rs, cnt =>
    if isValidC r then CacheEvent.commit r cnt :: insertLoop isValidC rs (cnt + 1)
    else []

/-- `Git::processRevision` (git.cpp:1195) as its sequence of cache
insertions: split the byte stream on NUL, insert the working-directory
pseudo-commit first (`updateWipRevision` runs before the loop), then
decode the records in order until the first invalid one.  `isValidC` is
modelled from the spec (section 6): structural validation of one commit
record against the log template (`CommitInfo::isValid` is not part of the
snapshot), abstracted as a predicate on the raw record. -/
def processRevision (isValidC : QStr → Bool) (ba : QStr) : List CacheEvent :=
  CacheEvent.wip :: insertLoop isValidC (splitAll (Char.ofNat 0) ba) 1

/-- NUL-joined stream of records (`-z` log output). -/
def joinNul : List QStr → QStr
  | [] => []
  | [r] => r
  | r :: rs => r ++ Char.ofNat 0 :: joinNul rs

/-! ## Spec-side reference for the record iteration (claim C3) -/

/-- The newline-terminated records of a buffer, with the given fuel. -/
def recordsF : Nat → QStr → List QStr
  | 0, _ => []
  | fuel + 1, s =>
    match findNL s with
    | none => []
    | some j => s.take j :: recordsF fuel (s.drop (j + 1))

/-- The newline-terminated records of a buffer (any trailing text with no
final newline is not a record). -/
def records (s : QStr) : List QStr := recordsF (s.length + 1) s

/-- Modelled from the spec (section 4.2 and the parent-tracking sentence of
claim C3): process the newline-terminated records one by one, in order;
a record beginning with `:` is parsed as a change line with the current
parent counter, any other record increments the counter, which starts
at 1 at the top level. -/
def recordFold (t : RfTag) : Session → Nat → List QStr → Option (Session × Nat)
  | s, parNum, [] => some (s, parNum)
  | s, parNum, r :: rs =>
    if r.get? 0 = some ':' then
      match parseDiffFormatLine s t r parNum with
      | none => none
      | some s' => recordFold t s' parNum rs
    else recordFold t s (parNum + 1) rs

/-! ## Entry order (claim C8)

The spec (section 3) requires that entries preserve the order they were
parsed in.  `entryPaths` reads the packed entries of a `RevisionFile`
back as paths, in storage order; `parsePaths` is the spec-side reference
listing the change-entry paths in the order the parser encounters them
(per change line: the single path of a combined-merge or fast-path line;
for the slow path the destination first and, exactly when the code's
rename test fires, the origin second — spec section 4.2; malformed
slow-path lines contribute nothing, and an out-of-range access is
failure, as everywhere in this embedding). -/

/-- The path denoted by one buffered `(dirIndex, fileIndex)` pair under
the given tables. -/
def pairPath (dn fn : List QStr) (d n : Nat) : QStr :=
  dn.getD d [] ++ fn.getD n []

/-- The paths of the loader's buffered pairs, in buffer order. -/
def bufPaths (s : Session) : List QStr :=
  (s.flDirs.zip s.flNames).map (fun p => pairPath s.dirNames s.fileNames p.1 p.2)

/-- Every buffered pair indexes into the tables. -/
def PairsValid (s : Session) : Prop :=
  ∀ p ∈ s.flDirs.zip s.flNames,
    p.1 < s.dirNames.length ∧ p.2 < s.fileNames.length

/-- The loader is well formed: aligned buffers, empty when unbound, and
all buffered pairs valid. -/
def LoaderOk (s : Session) : Prop :=
  s.flDirs.length = s.flNames.length
  ∧ (s.flBound = none → (s.flDirs = [] ∧ s.flNames = []))
  ∧ PairsValid s

/-- The paths of a `RevisionFile`'s packed entries, in storage order. -/
def entryPaths (s : Session) (rf : RevisionFile) : List QStr :=
  (List.range (count rf)).map (filePath s rf)

/-- The paths a slow-path (rename/copy) tail contributes, in append
order: nothing for a malformed tail, otherwise the destination followed
by the origin exactly when the (stripped) status token passes the
rename test. -/
def rowPaths? (row : QStr) : Option (List QStr) :=
  let sl := splitSkipEmpty '\t' row
  if sl.length ≠ 3 then some []
  else
    match qAt ((sl.getD 0 []).drop 1) 0 with
    | none => none
    | some c0 =>
      some (sl.getD 2 [] :: (if c0 = 'R' then [sl.getD 1 []] else []))

/-- The paths one change line contributes, in append order. -/
def linePaths? (line : QStr) : Option (List QStr) :=
  match qAt line 1 with
  | none => none
  | some c1 =>
    if c1 = ':' then some [lastSection line]
    else
      match qAt line 98 with
      | none => none
      | some c98 =>
        if c98 = '\t' then
          match qAt line 97 with
          | none => none
          | some _ => some [line.drop 99]
        else rowPaths? (line.drop 97)

/-- The change-entry paths of a whole buffer, in the order the parse loop
encounters them (same line iteration as `parseLoopF`). -/
def parsePathsF : Nat → Nat → QStr → Option (List QStr)
  | 0, _, _ => none
  | fuel + 1, m, rest =>
    match findNL (rest.drop m) with
    | none => some []
    | some j =>
      let line := rest.take (m + j)
      match qAt line 0 with
      | none => none
      | some c0 =>
        if c0 = ':' then
          match linePaths? line with
          | none => none
          | some ps => (parsePathsF fuel 98 (rest.drop (m + j + 1))).map (ps ++ ·)
        else parsePathsF fuel 98 (rest.drop (m + j + 1))

/-- The change-entry paths of a diff buffer, in parse order. -/
def parsePaths (buf : QStr) : Option (List QStr) :=
  parsePathsF (buf.length + 1) 0 buf

/-! ## Parse-session invariant (claim C8)

The parser appends, per entry, exactly one status value, one
`mergeParent` value and one buffered `(dirIndex, fileIndex)` pair; the
flush then packs two ints per buffered pair.  `SessionInv` captures the
states reachable during a parse/synthesize pass whose current target is
`t`. -/

/-- Slot `k` contains a packed block of exactly two ints per entry. -/
def slotDone (s : Session) (k : RfTag) : Prop :=
  (getRf s k).pathsIdx.length = 2 * (getRf s k).status.length

/-- Slot `k` is still the freshly constructed `RevisionFile`
(no entries, nothing packed). -/
def slotVirgin (s : Session) (k : RfTag) : Prop :=
  (getRf s k).status = [] ∧ (getRf s k).mergeParent = []
    ∧ (getRf s k).pathsIdx = []

/-- Invariant of a parse pass targeting `t`: the loader buffers are
aligned; every slot has as many status entries as parent indices; the
bound slot is unpacked and has exactly one status entry per buffered
pair, while every other slot is fully packed; when the loader is unbound
the buffers are empty and every slot is fully packed; and the target is
either already bound or still virgin. -/
def SessionInv (s : Session) (t : RfTag) : Prop :=
  s.flDirs.length = s.flNames.length
  ∧ (∀ k, (getRf s k).status.length = (getRf s k).mergeParent.length)
  ∧ (∀ b, s.flBound = some b →
      ((getRf s b).pathsIdx = []
        ∧ s.flNames.length = (getRf s b).status.length
        ∧ ∀ k, k ≠ b → slotDone s k))
  ∧ (s.flBound = none →
      (s.flDirs = [] ∧ s.flNames = [] ∧ ∀ k, slotDone s k))
  ∧ (s.flBound = some t ∨ slotVirgin s t)

/-- The `(dirIndex, fileIndex)` pair the interner buffered last (the pair
yielded by the most recent `appendFileName`). -/
def lastPair (s : Session) : Nat × Nat :=
  (s.flDirs.getLastD 0, s.flNames.getLastD 0)

/-- The path denoted by the last buffered `(dirIndex, fileIndex)` pair:
interned directory recombined with interned file name. -/
def lastPath (s : Session) : QStr :=
  s.dirNames.getD (s.flDirs.getLastD 0) [] ++ s.fileNames.getD (s.flNames.getLastD 0) []

/-! ## Concrete inputs used by the closed theorems -/

/-- A well-formed fast-path change line, as emitted by `git diff-index`:
`:<mode> <mode> <sha> <sha> <statusChar>\t<path>`.  The status character
sits at offset 97, the tab at offset 98 and the path from offset 99, so
the line has `99 + path.length` characters. -/
def mkFastLine (st : Char) (path : QStr) : QStr :=
  str ":100644 100644 " ++ List.replicate 40 'b' ++ [' ']
    ++ List.replicate 40 'c' ++ [' ', st, '\t'] ++ path

/-- Working-directory input for claim C1: the baseline diff-index reports
`a.txt` then `b.txt` as Modified; the cached (staged) diff-index reports
`b.txt` as unmerged (Conflict) and `a.txt` as plain Modified. -/
def wdC1 : WorkingDirInfo :=
  ⟨mkFastLine 'M' (str "a.txt") ++ ['\n'] ++ mkFastLine 'M' (str "b.txt") ++ ['\n'],
   mkFastLine 'U' (str "b.txt") ++ ['\n'] ++ mkFastLine 'M' (str "a.txt") ++ ['\n'],
   []⟩

/-- Diff buffer for the claim-C3 witness: a 98-character commentary record
followed by one fast-path change line, both newline-terminated. -/
def bufC3 : QStr :=
  List.replicate 98 'x' ++ ['\n'] ++ mkFastLine 'M' (str "a.txt") ++ ['\n']

/-! ## Helper lemmas -/

theorem findNL_lt {l : QStr} {j : Nat} (h : findNL l = some j) : j < l.length := by
  induction l generalizing j with
  | nil => simp [findNL] at h
  | cons c cs ih =>
    by_cases hc : c = '\n'
    · simp [findNL, hc] at h
      simp [← h]
    · simp [findNL, hc] at h
      obtain ⟨j', hj', rfl⟩ := h
      have := ih hj'
      simp only [List.length_cons]
      omega

theorem findNL_none {l : QStr} (h : findNL l = none) : ∀ c ∈ l, c ≠ '\n' := by
  induction l with
  | nil => simp
  | cons c cs ih =>
    by_cases hc : c = '\n'
    · simp [findNL, hc] at h
    · simp [findNL, hc] at h
      simpa [hc] using ih h

theorem findNL_eq_none {l : QStr} (h : ∀ c ∈ l, c ≠ '\n') : findNL l = none := by
  induction l with
  | nil => rfl
  | cons c cs ih =>
    have hc : c ≠ '\n' := h c (by simp)
    simp [findNL, hc]
    exact ih (fun x hx => h x (by simp [hx]))

theorem findNL_none_drop {l : QStr} (m : Nat) (h : findNL l = none) :
    findNL (l.drop m) = none :=
  findNL_eq_none fun c hc => findNL_none h c (List.drop_subset m l hc)

theorem findNL_drop {l : QStr} {j : Nat} (m : Nat) (h : findNL l = some j)
    (hm : m ≤ j) : findNL (l.drop m) = some (j - m) := by
  induction m generalizing l j with
  | zero => simpa using h
  | succ m ih =>
    match l with
    | [] => simp [findNL] at h
    | c :: cs =>
      by_cases hc : c = '\n'
      · simp [findNL, hc] at h
        omega
      · simp [findNL, hc] at h
        obtain ⟨j', hj', rfl⟩ := h
        have := ih hj' (by omega)
        simpa using this

theorem idxOf?_lt {x : QStr} {l : List QStr} {i : Nat} (h : idxOf? x l = some i) :
    i < l.length := by
  induction l generalizing i with
  | nil => simp [idxOf?] at h
  | cons y ys ih =>
    by_cases hy : y = x
    · simp [idxOf?, hy] at h
      simp [← h]
    · simp [idxOf?, hy] at h
      obtain ⟨i', hi', rfl⟩ := h
      have := ih hi'
      simp only [List.length_cons]
      omega

theorem idxOf?_eq_none {x : QStr} {l : List QStr} :
    idxOf? x l = none ↔ x ∉ l := by
  induction l with
  | nil => simp [idxOf?]
  | cons y ys ih =>
    by_cases hy : y = x
    · simp [idxOf?, hy]
    · simp [idxOf?, hy, ih, Ne.symm hy]

theorem idxOf?_append_self {x : QStr} {l : List QStr} (h : idxOf? x l = none) :
    idxOf? x (l ++ [x]) = some l.length := by
  induction l with
  | nil => simp [idxOf?]
  | cons y ys ih =>
    by_cases hy : y = x
    · simp [idxOf?, hy] at h
    · simp only [idxOf?, if_neg hy, Option.map_eq_none'] at h
      simp only [List.cons_append, idxOf?, if_neg hy, List.append_eq, ih h,
        Option.map_some', List.length_cons]

theorem idxOf?_getD {x : QStr} {l : List QStr} {i : Nat} (h : idxOf? x l = some i) :
    l.getD i [] = x := by
  induction l generalizing i with
  | nil => simp [idxOf?] at h
  | cons y ys ih =>
    by_cases hy : y = x
    · simp [idxOf?, hy] at h
      simp [← h, hy]
    · simp [idxOf?, hy] at h
      obtain ⟨i', hi', rfl⟩ := h
      simpa using ih hi'

theorem splitAll_no_sep {sep : Char} {x : QStr} (h : sep ∉ x) :
    splitAll sep x = [x] := by
  induction x with
  | nil => rfl
  | cons c cs ih =>
    have hc : ¬c = sep := by rintro rfl; exact h (by simp)
    have h2 := ih (fun hm => h (by simp [hm]))
    simp only [splitAll, if_neg hc, h2]

theorem splitAll_append {sep : Char} {x : QStr} (rest : QStr) (h : sep ∉ x) :
    splitAll sep (x ++ sep :: rest) = x :: splitAll sep rest := by
  induction x with
  | nil => simp [splitAll]
  | cons c cs ih =>
    have hc : ¬c = sep := by rintro rfl; exact h (by simp)
    have h2 := ih (fun hm => h (by simp [hm]))
    simp only [List.cons_append, splitAll, if_neg hc, List.append_eq, h2]

/-- Projections of `modifyRf` that do not involve the modified file. -/
theorem modifyRf_proj (s : Session) (t : RfTag) (f : RevisionFile → RevisionFile) :
    (modifyRf s t f).dirNames = s.dirNames
    ∧ (modifyRf s t f).fileNames = s.fileNames
    ∧ (modifyRf s t f).flBound = s.flBound
    ∧ (modifyRf s t f).flDirs = s.flDirs
    ∧ (modifyRf s t f).flNames = s.flNames := by
  cases t <;> simp [modifyRf]

theorem getRf_modifyRf_same (s : Session) (t : RfTag) (f : RevisionFile → RevisionFile) :
    getRf (modifyRf s t f) t = f (getRf s t) := by
  cases t <;> rfl

theorem getRf_modifyRf_other (s : Session) {t k : RfTag}
    (f : RevisionFile → RevisionFile) (h : k ≠ t) :
    getRf (modifyRf s t f) k = getRf s k := by
  cases t <;> cases k <;> first | rfl | exact absurd rfl h

/-! ## Claim C10: the flush protocol -/

/-- C10: flushing an unbound loader changes nothing, so flushing twice has
the same effect as flushing once; a flush of a bound loader writes the
buffered directory indices followed by the buffered file-name indices
into the bound file's packed storage as one contiguous block, clears the
buffer and unbinds the loader. -/
theorem flushFileNames_spec (s : Session) :
    (s.flBound = none → flushFileNames s = s)
    ∧ flushFileNames (flushFileNames s) = flushFileNames s
    ∧ ∀ t, s.flBound = some t → s.flDirs.length = s.flNames.length →
        ((getRf (flushFileNames s) t).pathsIdx = s.flDirs ++ s.flNames
          ∧ (flushFileNames s).flDirs = []
          ∧ (flushFileNames s).flNames = []
          ∧ (flushFileNames s).flBound = none) := by
  obtain ⟨dn, fn, rm, rc, fb, fd, fns⟩ := s
  cases fb with
  | none =>
    refine ⟨?_, ?_, ?_⟩
    · intro h
      rfl
    · rfl
    · intro t ht
      cases ht
  | some t =>
    refine ⟨?_, ?_, ?_⟩
    · intro h
      cases h
    · cases t <;> rfl
    · intro t' ht hlen
      cases ht
      cases t <;>
        exact ⟨by show fd ++ fns.take fd.length = fd ++ fns; rw [hlen, List.take_length],
          rfl, rfl, rfl⟩

/-- Concrete instance of `flushFileNames_spec`: a loader bound to the main
file with one buffered pair, and a fresh unbound session. -/
theorem flushFileNames_spec_witness :
    (getRf (flushFileNames
        { mkSession [] [] with flBound := some .main, flDirs := [3], flNames := [5] })
      .main).pathsIdx = [3, 5]
    ∧ flushFileNames (mkSession [] []) = mkSession [] [] :=
  ⟨((flushFileNames_spec
      { mkSession [] [] with flBound := some .main, flDirs := [3], flNames := [5] }).2.2
      .main rfl rfl).1,
   (flushFileNames_spec (mkSession [] [])).1 rfl⟩

/-! ## Claim C2: short change lines -/

/-- C2 counterexample: the two-character change line `:A` begins with `:`
and is not a combined-merge line, yet parsing it performs an out-of-range
`QString` access (the unconditional read of the fixed fast-path offset
98), modelled as `none` — it does not fall back to slow-path handling. -/
theorem parseDiffFormatLine_short_line_oob :
    qAt (str ":A") 0 = some ':'
    ∧ qAt (str ":A") 1 ≠ some ':'
    ∧ parseDiffFormatLine (mkSession [] []) .main (str ":A") 1 = none := by
  refine ⟨by decide, by decide, by decide⟩

/-- C2 amended: a combined-merge change line (second character `:`) is
parsed without any out-of-range access, but a non-combined change line is
parsed by reading the fixed fast-path offset 98 unconditionally, so
whenever the line is shorter than 99 characters the parse performs an
out-of-range access (modelled as `none`) instead of falling back. -/
theorem parseDiffFormatLine_oob_short (s : Session) (t : RfTag) (p : Nat) (line : QStr) :
    (qAt line 1 = some ':' → (parseDiffFormatLine s t line p).isSome = true)
    ∧ (qAt line 1 ≠ some ':' → line.length < 99 →
        parseDiffFormatLine s t line p = none) := by
  constructor
  · intro h
    simp [parseDiffFormatLine, h]
  · intro h1 h2
    cases hq : qAt line 1 with
    | none => simp [parseDiffFormatLine, hq]
    | some c =>
      have hc : ¬c = ':' := by rintro rfl; exact h1 hq
      have h98 : qAt line 98 = none := by
        simp [qAt, List.get?_eq_none]
        omega
      simp [parseDiffFormatLine, hq, hc, h98]

/-- Concrete instance of `parseDiffFormatLine_oob_short`: a combined-merge
line parses, the short line `:A` fails with an out-of-range access. -/
theorem parseDiffFormatLine_oob_short_witness :
    (parseDiffFormatLine (mkSession [] []) .main (str "::M\tx") 1).isSome = true
    ∧ parseDiffFormatLine (mkSession [] []) .main (str ":Ab") 1 = none :=
  ⟨(parseDiffFormatLine_oob_short (mkSession [] []) .main 1 (str "::M\tx")).1 (by decide),
   (parseDiffFormatLine_oob_short (mkSession [] []) .main 1 (str ":Ab")).2
     (by decide) (by decide)⟩

/-! ## Claim C4: rename expansion -/

set_option maxRecDepth 100000 in
/-- C4: evaluating `Git::setExtStatus` at the failing input
`R90\tsrc/old.txt\tsrc/new.txt` appends exactly ONE entry — the New entry
for the destination `src/new.txt` with extended status
`src/old.txt --> src/new.txt (90%)` — and no Deleted entry for
`src/old.txt`: `type.remove(0, 1)` has already stripped the `R`, so the
rename test `type.at(0) == 'R'` compares the digit `9` and never fires,
contradicting the code's own comment and the spec's rename expansion. -/
theorem setExtStatus_rename_single_entry :
    (setExtStatus (mkSession [] []) .main (str "R90\tsrc/old.txt\tsrc/new.txt") 1).map
        (fun s => (s.rfMain.status, s.rfMain.mergeParent, s.rfMain.extStatus,
          s.rfMain.onlyModified))
      = some ([NEW], [1], [str "src/old.txt --> src/new.txt (90%)"], false)
    ∧ (setExtStatus (mkSession [] []) .main (str "R90\tsrc/old.txt\tsrc/new.txt") 1).map
        (fun s => (s.flDirs.length, s.flNames.length,
          s.dirNames.getD (s.flDirs.getLastD 0) []
            ++ s.fileNames.getD (s.flNames.getLastD 0) []))
      = some (1, 1, str "src/new.txt") := by
  refine ⟨by decide, by decide⟩

/-! ## Claim C1: the working-directory merge -/

set_option maxRecDepth 1000000 in
set_option maxHeartbeats 1000000 in
/-- C1: evaluating `Git::fakeWorkDirRevFile` at the failing input `wdC1`.
The baseline entry 0 is `a.txt`; its staged counterpart is found at index
1 of the cached parse and carries no Conflict flag, yet the synthesized
entry for `a.txt` ends up with the Conflict flag set, because the code
tests `cachedFiles.statusCmp(i, CONFLICT)` with the baseline position
`i = 0` (where the cached parse holds the conflicting `b.txt`) instead of
the index that `findFileIndex` just computed for the path. -/
theorem fakeWorkDir_conflict_wrong_index :
    (fakeWorkDirFull [] [] wdC1).map (fun s =>
        (filePath s s.rfMain 0, findFileIndex s s.rfCached (str "a.txt")))
      = some (str "a.txt", 1)
    ∧ (fakeWorkDirFull [] [] wdC1).map (fun s =>
        (statusCmp s.rfCached 1 CONFLICT, statusCmp s.rfCached 0 CONFLICT,
          statusCmp s.rfMain 0 CONFLICT, statusCmp s.rfMain 0 IN_INDEX))
      = some (false, true, true, true) := by
  refine ⟨by decide, by decide⟩

/-! ## Interner lemmas -/

theorem getD_append_length {α : Type} (l : List α) (a d : α) :
    (l ++ [a]).getD l.length d = a := by
  induction l with
  | nil => rfl
  | cons x xs ih => simp [ih]

theorem flushFileNames_tables (s : Session) :
    (flushFileNames s).dirNames = s.dirNames
    ∧ (flushFileNames s).fileNames = s.fileNames := by
  cases hb : s.flBound with
  | none => simp [flushFileNames, hb]
  | some t => cases t <;> simp [flushFileNames, hb, modifyRf]

theorem flushFileNames_rf_fields (s : Session) (k : RfTag) :
    (getRf (flushFileNames s) k).status = (getRf s k).status
    ∧ (getRf (flushFileNames s) k).mergeParent = (getRf s k).mergeParent
    ∧ (getRf (flushFileNames s) k).onlyModified = (getRf s k).onlyModified
    ∧ (getRf (flushFileNames s) k).extStatus = (getRf s k).extStatus := by
  cases hb : s.flBound with
  | none => simp [flushFileNames, hb]
  | some t => cases t <;> cases k <;> simp [flushFileNames, hb, modifyRf, getRf]

theorem bindLoader_of_bound {s : Session} {t : RfTag} (h : s.flBound = some t) :
    bindLoader s t = s := by
  simp [bindLoader, h]

theorem bindLoader_spec (s : Session) (t : RfTag) :
    (bindLoader s t).dirNames = s.dirNames
    ∧ (bindLoader s t).fileNames = s.fileNames
    ∧ (bindLoader s t).flBound = some t
    ∧ ∀ k, (getRf (bindLoader s t) k).status = (getRf s k).status
        ∧ (getRf (bindLoader s t) k).mergeParent = (getRf s k).mergeParent
        ∧ (getRf (bindLoader s t) k).onlyModified = (getRf s k).onlyModified
        ∧ (getRf (bindLoader s t) k).extStatus = (getRf s k).extStatus := by
  by_cases h : s.flBound = some t
  · simp [bindLoader, h]
  · have h2 := flushFileNames_tables s
    have h3 := flushFileNames_rf_fields s
    refine ⟨?_, ?_, ?_, fun k => ?_⟩
    · simpa [bindLoader, h] using h2.1
    · simpa [bindLoader, h] using h2.2
    · simp [bindLoader, h]
    · have hk := h3 k
      have hgr : getRf { flushFileNames s with flBound := some t } k
          = getRf (flushFileNames s) k := by cases k <;> rfl
      simp only [bindLoader, if_pos (by simpa using h)]
      rw [hgr]
      exact hk

theorem internDir_found {s : Session} {dr : QStr} {i : Nat}
    (h : idxOf? dr s.dirNames = some i) :
    internDir s dr = { s with flDirs := s.flDirs ++ [i] } := by
  simp [internDir, h]

theorem internDir_new {s : Session} {dr : QStr} (h : idxOf? dr s.dirNames = none) :
    internDir s dr = { s with dirNames := s.dirNames ++ [dr], flDirs := s.flDirs ++ [s.dirNames.length] } := by
  simp [internDir, h]

theorem internFile_found {s : Session} {nm : QStr} {i : Nat}
    (h : idxOf? nm s.fileNames = some i) :
    internFile s nm = { s with flNames := s.flNames ++ [i] } := by
  simp [internFile, h]

theorem internFile_new {s : Session} {nm : QStr} (h : idxOf? nm s.fileNames = none) :
    internFile s nm = { s with fileNames := s.fileNames ++ [nm], flNames := s.flNames ++ [s.fileNames.length] } := by
  simp [internFile, h]

theorem internDir_spec (s : Session) (dr : QStr) :
    (internDir s dr).fileNames = s.fileNames
    ∧ (internDir s dr).flNames = s.flNames
    ∧ (internDir s dr).flBound = s.flBound
    ∧ (internDir s dr).rfMain = s.rfMain
    ∧ (internDir s dr).rfCached = s.rfCached
    ∧ (internDir s dr).dirNames.length ≤ s.dirNames.length + 1
    ∧ (internDir s dr).dirNames.take s.dirNames.length = s.dirNames
    ∧ ∃ i, (internDir s dr).flDirs = s.flDirs ++ [i]
        ∧ (internDir s dr).dirNames.getD i [] = dr
        ∧ idxOf? dr (internDir s dr).dirNames = some i := by
  cases h : idxOf? dr s.dirNames with
  | none =>
    rw [internDir_new h]
    refine ⟨rfl, rfl, rfl, rfl, rfl, by simp, List.take_left _ _, s.dirNames.length, rfl,
      getD_append_length _ _ _, idxOf?_append_self h⟩
  | some i =>
    rw [internDir_found h]
    exact ⟨rfl, rfl, rfl, rfl, rfl, by simp, List.take_length _, i, rfl,
      idxOf?_getD h, h⟩

theorem internFile_spec (s : Session) (nm : QStr) :
    (internFile s nm).dirNames = s.dirNames
    ∧ (internFile s nm).flDirs = s.flDirs
    ∧ (internFile s nm).flBound = s.flBound
    ∧ (internFile s nm).rfMain = s.rfMain
    ∧ (internFile s nm).rfCached = s.rfCached
    ∧ (internFile s nm).fileNames.length ≤ s.fileNames.length + 1
    ∧ (internFile s nm).fileNames.take s.fileNames.length = s.fileNames
    ∧ ∃ i, (internFile s nm).flNames = s.flNames ++ [i]
        ∧ (internFile s nm).fileNames.getD i [] = nm
        ∧ idxOf? nm (internFile s nm).fileNames = some i := by
  cases h : idxOf? nm s.fileNames with
  | none =>
    rw [internFile_new h]
    refine ⟨rfl, rfl, rfl, rfl, rfl, by simp, List.take_left _ _, s.fileNames.length, rfl,
      getD_append_length _ _ _, idxOf?_append_self h⟩
  | some i =>
    rw [internFile_found h]
    exact ⟨rfl, rfl, rfl, rfl, rfl, by simp, List.take_length _, i, rfl,
      idxOf?_getD h, h⟩

/-- The combined observable effect of one `Git::appendFileName` call. -/
theorem appendFileName_spec (s : Session) (t : RfTag) (name : QStr) :
    (appendFileName s t name).flBound = some t
    ∧ (appendFileName s t name).dirNames.take s.dirNames.length = s.dirNames
    ∧ (appendFileName s t name).dirNames.length ≤ s.dirNames.length + 1
    ∧ (appendFileName s t name).fileNames.take s.fileNames.length = s.fileNames
    ∧ (appendFileName s t name).fileNames.length ≤ s.fileNames.length + 1
    ∧ ∃ di fi,
        (appendFileName s t name).flDirs = (bindLoader s t).flDirs ++ [di]
        ∧ (appendFileName s t name).flNames = (bindLoader s t).flNames ++ [fi]
        ∧ (appendFileName s t name).dirNames.getD di []
            = name.take (lastIndexOfP1 name)
        ∧ (appendFileName s t name).fileNames.getD fi []
            = name.drop (lastIndexOfP1 name)
        ∧ idxOf? (name.take (lastIndexOfP1 name))
            (appendFileName s t name).dirNames = some di
        ∧ idxOf? (name.drop (lastIndexOfP1 name))
            (appendFileName s t name).fileNames = some fi := by
  have hB := bindLoader_spec s t
  have hD := internDir_spec (bindLoader s t) (name.take (lastIndexOfP1 name))
  obtain ⟨di, hdi1, hdi2, hdi3⟩ := hD.2.2.2.2.2.2.2
  have hF := internFile_spec (internDir (bindLoader s t) (name.take (lastIndexOfP1 name)))
    (name.drop (lastIndexOfP1 name))
  obtain ⟨fi, hfi1, hfi2, hfi3⟩ := hF.2.2.2.2.2.2.2
  have happ : appendFileName s t name
      = internFile (internDir (bindLoader s t) (name.take (lastIndexOfP1 name)))
          (name.drop (lastIndexOfP1 name)) := rfl
  refine ⟨?_, ?_, ?_, ?_, ?_, di, fi, ?_, ?_, ?_, ?_, ?_, ?_⟩
  · rw [happ, hF.2.2.1, hD.2.2.1, hB.2.2.1]
  · rw [happ, hF.1, ← hB.1]
    exact hD.2.2.2.2.2.2.1
  · rw [happ, hF.1, ← hB.1]
    exact hD.2.2.2.2.2.1
  · rw [happ]
    have : (internDir (bindLoader s t) (name.take (lastIndexOfP1 name))).fileNames
        = s.fileNames := by rw [hD.1, hB.2.1]
    rw [← this]
    exact hF.2.2.2.2.2.2.1
  · rw [happ]
    have : (internDir (bindLoader s t) (name.take (lastIndexOfP1 name))).fileNames
        = s.fileNames := by rw [hD.1, hB.2.1]
    rw [← this]
    exact hF.2.2.2.2.2.1
  · rw [happ, hF.2.1, hdi1]
  · rw [happ, hfi1, hD.2.1]
  · rw [happ, hF.1]
    exact hdi2
  · rw [happ]
    exact hfi2
  · rw [happ, hF.1]
    exact hdi3
  · rw [happ]
    exact hfi3

/-- `appendFileName` preserves all `RevisionFile` fields except for the
`pathsIdx` written by an intervening flush. -/
theorem appendFileName_rf_fields (s : Session) (t : RfTag) (name : QStr) (k : RfTag) :
    (getRf (appendFileName s t name) k).status = (getRf s k).status
    ∧ (getRf (appendFileName s t name) k).mergeParent = (getRf s k).mergeParent
    ∧ (getRf (appendFileName s t name) k).onlyModified = (getRf s k).onlyModified
    ∧ (getRf (appendFileName s t name) k).extStatus = (getRf s k).extStatus := by
  have hB := (bindLoader_spec s t).2.2.2 k
  have happ : appendFileName s t name
      = internFile (internDir (bindLoader s t) (name.take (lastIndexOfP1 name)))
          (name.drop (lastIndexOfP1 name)) := rfl
  have hD := internDir_spec (bindLoader s t) (name.take (lastIndexOfP1 name))
  have hF := internFile_spec (internDir (bindLoader s t) (name.take (lastIndexOfP1 name)))
    (name.drop (lastIndexOfP1 name))
  have hgd : ∀ s' : Session, s'.rfMain = (bindLoader s t).rfMain →
      s'.rfCached = (bindLoader s t).rfCached →
      getRf s' k = getRf (bindLoader s t) k := by
    intro s' h1 h2
    cases k <;> simp [getRf, h1, h2]
  have : getRf (appendFileName s t name) k = getRf (bindLoader s t) k := by
    rw [happ]
    exact hgd _ (by rw [hF.2.2.2.1, hD.2.2.2.1]) (by rw [hF.2.2.2.2.1, hD.2.2.2.2.1])
  rw [this]
  exact hB

/-- Recombining the two halves interned by `appendFileName` gives back the
appended name. -/
theorem appendFileName_lastPath (s : Session) (t : RfTag) (name : QStr) :
    lastPath (appendFileName s t name) = name := by
  obtain ⟨-, -, -, -, -, di, fi, h1, h2, h3, h4, -, -⟩ := appendFileName_spec s t name
  unfold lastPath
  rw [h1, h2, List.getLastD_concat, List.getLastD_concat, h3, h4,
    List.take_append_drop]

/-! ## Claim C6: empty-path interning -/

/-- C6 counterexample: with fresh (empty) interning tables,
`appendFileName` on the empty path is not a no-op — it creates a
directory-table entry and a file-table entry for the empty string, and
buffers the pair `(0, 0)` in the loader. -/
theorem appendFileName_empty_not_noop :
    (appendFileName (mkSession [] []) .main []).dirNames = [[]]
    ∧ (appendFileName (mkSession [] []) .main []).fileNames = [[]]
    ∧ (appendFileName (mkSession [] []) .main []).flDirs = [0]
    ∧ (appendFileName (mkSession [] []) .main []).flNames = [0]
    ∧ appendFileName (mkSession [] []) .main [] ≠ mkSession [] [] := by
  refine ⟨by decide, by decide, by decide, by decide, by decide⟩

/-- C6 amended: `Git::appendFileName` does not special-case the empty
path: it binds the loader to the target, splits the empty path into an
empty directory key and an empty file key, interns both — appending the
empty string to a table exactly when it is absent — and buffers one
index pair.  The empty-path no-op lives in `Git::findFileIndex`, which
returns `-1` for an empty name without touching any state. -/
theorem appendFileName_empty_interns (s : Session) (t : RfTag) (rf : RevisionFile) :
    (appendFileName s t []).flBound = some t
    ∧ (appendFileName s t []).dirNames
        = (if ([] : QStr) ∈ s.dirNames then s.dirNames else s.dirNames ++ [[]])
    ∧ (appendFileName s t []).fileNames
        = (if ([] : QStr) ∈ s.fileNames then s.fileNames else s.fileNames ++ [[]])
    ∧ (appendFileName s t []).flDirs.length = (bindLoader s t).flDirs.length + 1
    ∧ (appendFileName s t []).flNames.length = (bindLoader s t).flNames.length + 1
    ∧ findFileIndex s rf [] = -1 := by
  have hB := bindLoader_spec s t
  have happ : appendFileName s t []
      = internFile (internDir (bindLoader s t) []) [] := rfl
  have hD := internDir_spec (bindLoader s t) []
  have hF := internFile_spec (internDir (bindLoader s t) []) []
  obtain ⟨di, hdi1, -, -⟩ := hD.2.2.2.2.2.2.2
  obtain ⟨fi, hfi1, -, -⟩ := hF.2.2.2.2.2.2.2
  refine ⟨?_, ?_, ?_, ?_, ?_, rfl⟩
  · rw [happ, hF.2.2.1, hD.2.2.1, hB.2.2.1]
  · rw [happ, hF.1]
    by_cases h : ([] : QStr) ∈ s.dirNames
    · rw [if_pos h]
      have : idxOf? [] (bindLoader s t).dirNames ≠ none := by
        rw [hB.1, Ne, idxOf?_eq_none]
        simpa using h
      cases hx : idxOf? [] (bindLoader s t).dirNames with
      | none => exact absurd hx this
      | some i => rw [internDir_found hx, hB.1]
    · rw [if_neg h]
      have hx : idxOf? [] (bindLoader s t).dirNames = none := by
        rw [hB.1, idxOf?_eq_none]
        simpa using h
      rw [internDir_new hx, hB.1]
  · rw [happ]
    have hfn : (internDir (bindLoader s t) []).fileNames = s.fileNames := by
      rw [hD.1, hB.2.1]
    by_cases h : ([] : QStr) ∈ s.fileNames
    · rw [if_pos h]
      have : idxOf? [] (internDir (bindLoader s t) []).fileNames ≠ none := by
        rw [hfn, Ne, idxOf?_eq_none]
        simpa using h
      cases hx : idxOf? [] (internDir (bindLoader s t) []).fileNames with
      | none => exact absurd hx this
      | some i => rw [internFile_found hx, hfn]
    · rw [if_neg h]
      have hx : idxOf? [] (internDir (bindLoader s t) []).fileNames = none := by
        rw [hfn, idxOf?_eq_none]
        simpa using h
      rw [internFile_new hx, hfn]
  · rw [happ, hF.2.1, hdi1]
    simp
  · rw [happ, hfi1, hD.2.1]
    simp

/-! ## Claim C7: interning idempotence -/

/-- C7: interning the same path twice yields the same `(dirIndex,
fileIndex)` pair both times; the second call leaves both tables exactly as
the first call left them; the first call grows each table by at most one
entry; and the tables are append-only (the first call preserves every
previously assigned index: the old table is a prefix of the new one). -/
theorem appendFileName_idempotent (s : Session) (t : RfTag) (name : QStr) :
    lastPair (appendFileName (appendFileName s t name) t name)
      = lastPair (appendFileName s t name)
    ∧ (appendFileName (appendFileName s t name) t name).dirNames
      = (appendFileName s t name).dirNames
    ∧ (appendFileName (appendFileName s t name) t name).fileNames
      = (appendFileName s t name).fileNames
    ∧ (appendFileName s t name).dirNames.length ≤ s.dirNames.length + 1
    ∧ (appendFileName s t name).fileNames.length ≤ s.fileNames.length + 1
    ∧ (appendFileName s t name).dirNames.take s.dirNames.length = s.dirNames
    ∧ (appendFileName s t name).fileNames.take s.fileNames.length = s.fileNames := by
  obtain ⟨hb, htd, hld, htf, hlf, di, fi, h1, h2, h3, h4, h5, h6⟩ :=
    appendFileName_spec s t name
  have happ2 : appendFileName (appendFileName s t name) t name
      = internFile (internDir (appendFileName s t name)
          (name.take (lastIndexOfP1 name))) (name.drop (lastIndexOfP1 name)) := by
    show internFile (internDir (bindLoader (appendFileName s t name) t) _) _ = _
    rw [bindLoader_of_bound hb]
  have hdir2 := internDir_found h5
  have hfn2 : (internDir (appendFileName s t name) (name.take (lastIndexOfP1 name))).fileNames
      = (appendFileName s t name).fileNames := by
    rw [hdir2]
  have hfile2 := internFile_found (show idxOf? (name.drop (lastIndexOfP1 name))
      (internDir (appendFileName s t name) (name.take (lastIndexOfP1 name))).fileNames
      = some fi by rw [hfn2]; exact h6)
  refine ⟨?_, ?_, ?_, hld, hlf, htd, htf⟩
  · rw [happ2, hfile2, hdir2]
    unfold lastPair
    simp only [h1, h2, List.getLastD_concat]
  · rw [happ2, hfile2, hdir2]
  · rw [happ2, hfile2, hdir2]

/-! ## Claim C5: copy non-deletion -/

theorem lastPath_modifyRf (s : Session) (t : RfTag) (f : RevisionFile → RevisionFile) :
    lastPath (modifyRf s t f) = lastPath s := by
  cases t <;> rfl

/-- C5: a slow-path change line whose status token is `C` followed by a
similarity percentage (with non-empty, tab-free origin and destination
paths) appends exactly one entry: status New, parent `p`, at the
destination path; no Deleted entry is appended for the origin (the status
list grows by exactly `[NEW]` and the loader buffers exactly one pair,
whose path is the destination). -/
theorem setExtStatus_copy_single_entry (s : Session) (t : RfTag) (p : Nat)
    (digits orig dest : QStr)
    (hd : digits ≠ []) (hdd : ∀ c ∈ digits, c.isDigit)
    (ho : orig ≠ []) (hot : '\t' ∉ orig)
    (he : dest ≠ []) (het : '\t' ∉ dest) :
    (setExtStatus s t ('C' :: digits ++ '\t' :: orig ++ '\t' :: dest) p).map
        (fun s' => (getRf s' t).status) = some ((getRf s t).status ++ [NEW])
    ∧ (setExtStatus s t ('C' :: digits ++ '\t' :: orig ++ '\t' :: dest) p).map
        (fun s' => (getRf s' t).mergeParent) = some ((getRf s t).mergeParent ++ [p])
    ∧ (setExtStatus s t ('C' :: digits ++ '\t' :: orig ++ '\t' :: dest) p).map
        (fun s' => s'.flNames.length) = some ((bindLoader s t).flNames.length + 1)
    ∧ (setExtStatus s t ('C' :: digits ++ '\t' :: orig ++ '\t' :: dest) p).map
        (fun s' => lastPath s') = some dest := by
  obtain ⟨d, ds, rfl⟩ := List.exists_cons_of_ne_nil hd
  have hdtab : '\t' ∉ ('C' :: d :: ds : QStr) := by
    intro hm
    rcases List.mem_cons.1 hm with h | hm
    · cases h
    · exact absurd (hdd _ hm) (by decide)
  have hsl : splitSkipEmpty '\t' ('C' :: (d :: ds) ++ '\t' :: orig ++ '\t' :: dest)
      = ['C' :: d :: ds, orig, dest] := by
    have e1 : ('C' :: (d :: ds) ++ '\t' :: orig ++ '\t' :: dest : QStr)
        = ('C' :: d :: ds) ++ '\t' :: (orig ++ '\t' :: dest) := by simp
    rw [splitSkipEmpty, e1, splitAll_append _ hdtab, splitAll_append _ hot,
      splitAll_no_sep het]
    simp [ho, he]
  have hR : ¬d = 'R' := by
    intro hdr
    exact absurd (hdd d (by simp)) (by rw [hdr]; decide)
  have hstep : setExtStatus s t ('C' :: (d :: ds) ++ '\t' :: orig ++ '\t' :: dest) p
      = some (modifyRf
          (modifyRf (modifyRf (modifyRf (appendFileName s t dest) t
            (fun rf => appendMergeParent rf p)) t (fun rf => setStatusFlag rf NEW)) t
            (fun rf => appendExtStatus rf
              (orig ++ str " --> " ++ dest ++ str " (" ++ numberQ (toIntQ (d :: ds))
                ++ str "%)"))) t
          (fun rf => setOnlyModified rf false)) := by
    rw [setExtStatus, hsl]
    simp only [List.length_cons, List.length_nil, qAt, List.getD, List.get?]
    norm_num
    simp [List.drop_one, hR]
  rw [hstep]
  have hrf := appendFileName_rf_fields s t dest t
  refine ⟨?_, ?_, ?_, ?_⟩
  · simp only [Option.map_some']
    rw [getRf_modifyRf_same]
    simp only [setOnlyModified]
    rw [getRf_modifyRf_same]
    simp only [appendExtStatus]
    rw [getRf_modifyRf_same]
    simp only [setStatusFlag]
    rw [getRf_modifyRf_same]
    simp only [appendMergeParent]
    rw [hrf.1]
  · simp only [Option.map_some']
    rw [getRf_modifyRf_same]
    simp only [setOnlyModified]
    rw [getRf_modifyRf_same]
    simp only [appendExtStatus]
    rw [getRf_modifyRf_same]
    simp only [setStatusFlag]
    rw [getRf_modifyRf_same]
    simp only [appendMergeParent]
    rw [hrf.2.1]
  · simp only [Option.map_some']
    rw [(modifyRf_proj _ _ _).2.2.2.2, (modifyRf_proj _ _ _).2.2.2.2,
      (modifyRf_proj _ _ _).2.2.2.2, (modifyRf_proj _ _ _).2.2.2.2]
    obtain ⟨-, -, -, -, -, di, fi, -, hfn, -, -, -, -⟩ := appendFileName_spec s t dest
    rw [hfn]
    simp
  · simp only [Option.map_some']
    rw [lastPath_modifyRf, lastPath_modifyRf, lastPath_modifyRf, lastPath_modifyRf,
      appendFileName_lastPath]

/-- Concrete instance of `setExtStatus_copy_single_entry` at
`C80\ta.txt\tb.txt` from a fresh session. -/
theorem setExtStatus_copy_single_entry_witness :
    (setExtStatus (mkSession [] []) .main (str "C80\ta.txt\tb.txt") 1).map
        (fun s' => (getRf s' .main).status) = some [NEW]
    ∧ (setExtStatus (mkSession [] []) .main (str "C80\ta.txt\tb.txt") 1).map
        (fun s' => lastPath s') = some (str "b.txt") := by
  have h := setExtStatus_copy_single_entry (mkSession [] []) .main 1
    (str "80") (str "a.txt") (str "b.txt")
    (by decide) (by decide) (by decide) (by decide) (by decide) (by decide)
  have he : ('C' :: str "80" ++ '\t' :: str "a.txt" ++ '\t' :: str "b.txt" : QStr)
      = str "C80\ta.txt\tb.txt" := by decide
  rw [he] at h
  exact ⟨by rw [h.1]; decide, h.2.2.2⟩

/-! ## Claim C9: commit-stream decoding -/

theorem splitNul_join {rs : List QStr} (h : ∀ r ∈ rs, Char.ofNat 0 ∉ r)
    (hne : rs ≠ []) :
    splitAll (Char.ofNat 0) (joinNul rs) = rs := by
  induction rs with
  | nil => exact absurd rfl hne
  | cons r rs ih =>
    cases rs with
    | nil => exact splitAll_no_sep (h r (by simp))
    | cons r2 rs2 =>
      show splitAll _ (r ++ Char.ofNat 0 :: joinNul (r2 :: rs2)) = _
      rw [splitAll_append _ (h r (by simp)),
        ih (fun x hx => h x (List.mem_cons_of_mem _ hx)) (by simp)]

/-- C9: decoding a NUL-joined stream of four NUL-free records of which the
first three validate and the fourth does not inserts, in order: the
working-directory pseudo-commit first (computed and inserted before any
record is decoded), then the three valid records with order indices 1, 2,
3; the malformed fourth record stops the batch and nothing after it is
inserted, while the three decoded commits remain. -/
theorem processRevision_truncates (v : QStr → Bool) (r1 r2 r3 r4 : QStr)
    (h1 : Char.ofNat 0 ∉ r1) (h2 : Char.ofNat 0 ∉ r2) (h3 : Char.ofNat 0 ∉ r3)
    (h4 : Char.ofNat 0 ∉ r4)
    (hv1 : v r1 = true) (hv2 : v r2 = true) (hv3 : v r3 = true)
    (hv4 : v r4 = false) :
    processRevision v (joinNul [r1, r2, r3, r4])
      = [CacheEvent.wip, CacheEvent.commit r1 1, CacheEvent.commit r2 2,
         CacheEvent.commit r3 3] := by
  unfold processRevision
  rw [splitNul_join ?_ (by simp)]
  · simp [insertLoop, hv1, hv2, hv3, hv4]
  · intro x hx
    simp only [List.mem_cons, List.not_mem_nil, or_false] at hx
    rcases hx with rfl | rfl | rfl | rfl <;> assumption

/-- Concrete instance of `processRevision_truncates`: records `a`, `b`,
`c` and an empty (invalid) fourth record, validity = non-emptiness. -/
theorem processRevision_truncates_witness :
    processRevision (fun r => !r.isEmpty) (joinNul [str "a", str "b", str "c", []])
      = [CacheEvent.wip, CacheEvent.commit (str "a") 1, CacheEvent.commit (str "b") 2,
         CacheEvent.commit (str "c") 3] :=
  processRevision_truncates (fun r => !r.isEmpty) (str "a") (str "b") (str "c") []
    (by decide) (by decide) (by decide) (by decide)
    (by decide) (by decide) (by decide) (by decide)

/-! ## Claim C3: record iteration and parent tracking -/

/-- The parse loop processes the newline-terminated records one by one —
provided the search offset never skips past the end of the current record
and every record is at least 98 characters long (the loop searches for
the next newline only from 99 positions past the previous one). -/
theorem parseLoopF_eq_recordFold (t : RfTag) :
    ∀ (f : Nat) (rest : QStr) (s : Session) (parNum m : Nat),
      rest.length < f →
      (∀ r ∈ recordsF f rest, 98 ≤ r.length) →
      (∀ j, findNL rest = some j → m ≤ j) →
      parseLoopF t f s parNum m rest = recordFold t s parNum (recordsF f rest) := by
  intro f
  induction f with
  | zero => intro rest s parNum m hf; omega
  | succ fuel ih =>
    intro rest s parNum m hf hp hm
    cases hnl : findNL rest with
    | none =>
      simp only [parseLoopF, recordsF, hnl, findNL_none_drop m hnl, recordFold]
    | some j =>
      have hjlt : j < rest.length := findNL_lt hnl
      have hmj : m ≤ j := hm j hnl
      have recsEq : recordsF (fuel + 1) rest
          = rest.take j :: recordsF fuel (rest.drop (j + 1)) := by
        simp [recordsF, hnl]
      have h98 : 98 ≤ j := by
        have := hp (rest.take j) (by rw [recsEq]; exact List.mem_cons_self _ _)
        rwa [List.length_take, min_eq_left (le_of_lt hjlt)] at this
      have hdropnl : findNL (rest.drop m) = some (j - m) := findNL_drop m hnl hmj
      have he : m + (j - m) = j := Nat.add_sub_cancel' hmj
      have hlen2 : (rest.drop (j + 1)).length < fuel := by
        rw [List.length_drop]
        omega
      have hp2 : ∀ r ∈ recordsF fuel (rest.drop (j + 1)), 98 ≤ r.length := by
        intro r hr
        exact hp r (by rw [recsEq]; exact List.mem_cons_of_mem _ hr)
      have hm2 : ∀ j', findNL (rest.drop (j + 1)) = some j' → 98 ≤ j' := by
        intro j' hj'
        have hfuel1 : ∃ fuel', fuel = fuel' + 1 := by
          refine ⟨fuel - 1, ?_⟩
          omega
        obtain ⟨fuel', rfl⟩ := hfuel1
        have recsEq2 : recordsF (fuel' + 1) (rest.drop (j + 1))
            = (rest.drop (j + 1)).take j'
              :: recordsF fuel' ((rest.drop (j + 1)).drop (j' + 1)) := by
          simp [recordsF, hj']
        have := hp2 ((rest.drop (j + 1)).take j')
          (by rw [recsEq2]; exact List.mem_cons_self _ _)
        have hj'lt : j' < (rest.drop (j + 1)).length := findNL_lt hj'
        rwa [List.length_take, min_eq_left (le_of_lt hj'lt)] at this
      rw [recsEq]
      simp only [parseLoopF, hdropnl, he]
      cases hline : rest.take j with
      | nil =>
        have : (rest.take j).length = j :=
          (List.length_take j rest).trans (min_eq_left (le_of_lt hjlt))
        rw [hline] at this
        simp at this
        omega
      | cons c cr =>
        have hq : qAt (c :: cr) 0 = some c := rfl
        by_cases hc : c = ':'
        · subst hc
          simp only [recordFold, hq, if_pos rfl]
          cases hpl : parseDiffFormatLine s t (':' :: cr) parNum with
          | none => simp [hpl]
          | some s' =>
            simp only [hpl]
            exact ih (rest.drop (j + 1)) s' parNum 98 hlen2 hp2 hm2
        · have hq2 : ¬((c :: cr : QStr).get? 0 = some ':') := by
            simp [hc]
          simp only [recordFold, hq, if_neg hq2, if_neg hc]
          exact ih (rest.drop (j + 1)) s (parNum + 1) 98 hlen2 hp2 hm2

/-- C3 counterexample: the buffer `a\nb\n` holds two newline-terminated
commentary records, neither beginning with `:`, so under the claim the
parent counter (started at 1) must be incremented twice, ending at 3
(`recordFold`, the spec-side per-record iteration).  The code searches
for the second newline only from 99 positions past the first one
(`buf.indexOf('\n', endPos + 99)`), never examines the record `b`, and
ends with the counter at 2. -/
theorem parseDiffFormat_skips_short_records :
    records (str "a\nb\n") = [str "a", str "b"]
    ∧ (∀ r ∈ records (str "a\nb\n"), ¬(qAt r 0 = some ':'))
    ∧ parseDiffFormat (mkSession [] []) .main (str "a\nb\n")
        = some (mkSession [] [], 2)
    ∧ recordFold .main (mkSession [] []) 1 (records (str "a\nb\n"))
        = some (mkSession [] [], 3)
    ∧ parseDiffFormat (mkSession [] []) .main (str "a\nb\n")
        ≠ recordFold .main (mkSession [] []) 1 (records (str "a\nb\n")) := by
  refine ⟨by decide, by decide, by decide, by decide, by decide⟩

/-- C3 amended: provided every newline-terminated record of the buffer is
at least 98 characters long (so that the loop's newline search, which
starts 99 positions past the previous newline, cannot skip a record
boundary), `Git::parseDiffFormat` examines every record exactly once and
equals the spec-side per-record iteration `recordFold`: the parent
counter starts at 1, is incremented once per record not beginning with
`:`, and every change-line record is parsed with the parent counter value
active when it is reached. -/
theorem parseDiffFormat_eq_recordFold (s : Session) (t : RfTag) (buf : QStr)
    (hp : ∀ r ∈ records buf, 98 ≤ r.length) :
    parseDiffFormat s t buf = recordFold t s 1 (records buf) :=
  parseLoopF_eq_recordFold t (buf.length + 1) buf s 1 0 (by omega) hp
    (fun j _ => Nat.zero_le j)

set_option maxRecDepth 1000000 in
set_option maxHeartbeats 1000000 in
/-- Concrete instance of `parseDiffFormat_eq_recordFold` on `bufC3` (one
98-character commentary record, one 104-character change line). -/
theorem parseDiffFormat_eq_recordFold_witness :
    (∀ r ∈ records bufC3, 98 ≤ r.length)
    ∧ parseDiffFormat (mkSession [] []) .main bufC3
        = recordFold .main (mkSession [] []) 1 (records bufC3) :=
  ⟨by decide, parseDiffFormat_eq_recordFold (mkSession [] []) .main bufC3 (by decide)⟩

/-! ## Claim C8: session-invariant machinery -/

theorem modifyRf_modifyRf (s : Session) (t : RfTag)
    (f g : RevisionFile → RevisionFile) :
    modifyRf (modifyRf s t f) t g = modifyRf s t (fun rf => g (f rf)) := by
  cases t <;> rfl

theorem flushNone {s : Session} (h : s.flBound = none) : flushFileNames s = s := by
  simp [flushFileNames, h]

theorem getRf_rebind (s : Session) (x : Option RfTag) (k : RfTag) :
    getRf { s with flBound := x } k = getRf s k := by
  cases k <;> rfl

theorem getRf_modifyRf (s : Session) (k0 : RfTag) (g : RevisionFile → RevisionFile)
    (k : RfTag) :
    getRf (modifyRf s k0 g) k = if k = k0 then g (getRf s k) else getRf s k := by
  cases k <;> cases k0 <;> simp [getRf, modifyRf]

/-- Effect of a flush of a bound loader. -/
theorem flush_packed {s : Session} {b : RfTag} (hb : s.flBound = some b) :
    (getRf (flushFileNames s) b).pathsIdx
        = s.flDirs ++ s.flNames.take s.flDirs.length
    ∧ (∀ k, k ≠ b → (getRf (flushFileNames s) k).pathsIdx = (getRf s k).pathsIdx)
    ∧ (flushFileNames s).flDirs = []
    ∧ (flushFileNames s).flNames = []
    ∧ (flushFileNames s).flBound = none := by
  refine ⟨?_, ?_, ?_, ?_, ?_⟩
  · cases b <;> simp [flushFileNames, hb, modifyRf, getRf]
  · intro k hk
    cases b <;> cases k <;>
      first
      | exact absurd rfl hk
      | simp [flushFileNames, hb, modifyRf, getRf]
  · cases b <;> simp [flushFileNames, hb, modifyRf]
  · cases b <;> simp [flushFileNames, hb, modifyRf]
  · cases b <;> simp [flushFileNames, hb, modifyRf]

/-- `appendFileName` only touches the loader and the tables; the
`RevisionFile`s are exactly those after the (possible) rebinding flush. -/
theorem appendFileName_getRf (s : Session) (t : RfTag) (n : QStr) (k : RfTag) :
    getRf (appendFileName s t n) k = getRf (bindLoader s t) k := by
  have happ : appendFileName s t n
      = internFile (internDir (bindLoader s t) (n.take (lastIndexOfP1 n)))
          (n.drop (lastIndexOfP1 n)) := rfl
  have hD := internDir_spec (bindLoader s t) (n.take (lastIndexOfP1 n))
  have hF := internFile_spec (internDir (bindLoader s t) (n.take (lastIndexOfP1 n)))
    (n.drop (lastIndexOfP1 n))
  rw [happ]
  cases k <;> simp [getRf, hF.2.2.2.1, hF.2.2.2.2.1, hD.2.2.2.1, hD.2.2.2.2.1]

theorem appendFileName_buffer_len (s : Session) (t : RfTag) (n : QStr) :
    (appendFileName s t n).flDirs.length = (bindLoader s t).flDirs.length + 1
    ∧ (appendFileName s t n).flNames.length = (bindLoader s t).flNames.length + 1 := by
  obtain ⟨-, -, -, -, -, di, fi, h1, h2, -, -, -, -⟩ := appendFileName_spec s t n
  rw [h1, h2]
  simp

theorem SessionInv_mkSession (dn fn : List QStr) (t : RfTag) :
    SessionInv (mkSession dn fn) t := by
  refine ⟨rfl, ?_, ?_, ?_, Or.inr ?_⟩
  · intro k
    cases k <;> rfl
  · intro b hb
    cases hb
  · intro _
    exact ⟨rfl, rfl, fun k => by cases k <;> rfl⟩
  · cases t <;> exact ⟨rfl, rfl, rfl⟩

/-- The loader state right after the rebinding step of `appendFileName`,
under the session invariant. -/
theorem bindLoader_inv_props {s : Session} {t : RfTag} (h : SessionInv s t) :
    (bindLoader s t).flDirs.length = (bindLoader s t).flNames.length
    ∧ (bindLoader s t).flNames.length = (getRf s t).status.length
    ∧ (getRf (bindLoader s t) t).pathsIdx = []
    ∧ (∀ k, (getRf (bindLoader s t) k).status = (getRf s k).status
        ∧ (getRf (bindLoader s t) k).mergeParent = (getRf s k).mergeParent)
    ∧ (∀ k, k ≠ t → slotDone (bindLoader s t) k) := by
  obtain ⟨h1, h2, h3, h4, h5⟩ := h
  by_cases hbt : s.flBound = some t
  · rw [bindLoader_of_bound hbt]
    exact ⟨h1, (h3 t hbt).2.1, (h3 t hbt).1, fun k => ⟨rfl, rfl⟩,
      fun k hk => (h3 t hbt).2.2 k hk⟩
  · have hv : slotVirgin s t := h5.resolve_left hbt
    have hbind : bindLoader s t = { flushFileNames s with flBound := some t } := by
      simp [bindLoader, hbt]
    cases hbb : s.flBound with
    | none =>
      obtain ⟨hd0, hn0, hdone⟩ := h4 hbb
      have hfl : flushFileNames s = s := flushNone hbb
      rw [hbind, hfl]
      refine ⟨?_, ?_, ?_, fun k => ⟨by rw [getRf_rebind], by rw [getRf_rebind]⟩, ?_⟩
      · show s.flDirs.length = s.flNames.length
        exact h1
      · show s.flNames.length = _
        rw [hn0, hv.1]
      · rw [getRf_rebind]
        exact hv.2.2
      · intro k hk
        show (getRf { s with flBound := some t } k).pathsIdx.length
            = 2 * (getRf { s with flBound := some t } k).status.length
        rw [getRf_rebind]
        exact hdone k
    | some b =>
      have hbt' : b ≠ t := by
        intro hbt2
        rw [hbt2] at hbb
        exact hbt hbb
      obtain ⟨hpb, hnb, hdoneb⟩ := h3 b hbb
      obtain ⟨hpack, hoth, hfd, hfn, -⟩ := flush_packed hbb
      have hrff := fun k => flushFileNames_rf_fields s k
      rw [hbind]
      refine ⟨?_, ?_, ?_, fun k => ⟨by rw [getRf_rebind]; exact (hrff k).1,
        by rw [getRf_rebind]; exact (hrff k).2.1⟩, ?_⟩
      · show (flushFileNames s).flDirs.length = (flushFileNames s).flNames.length
        rw [hfd, hfn]
      · show (flushFileNames s).flNames.length = _
        rw [hfn, hv.1]
      · rw [getRf_rebind]
        rw [hoth t (Ne.symm hbt')]
        exact hv.2.2
      · intro k hk
        show (getRf { flushFileNames s with flBound := some t } k).pathsIdx.length
            = 2 * (getRf { flushFileNames s with flBound := some t } k).status.length
        rw [getRf_rebind]
        by_cases hkb : k = b
        · subst hkb
          rw [hpack, (hrff k).1]
          rw [List.length_append, List.length_take, h1, min_self, ← hnb]
          omega
        · rw [hoth k hkb, (hrff k).1]
          exact hdoneb k hkb

/-- One appended entry (an `appendFileName` followed by modifications of
the target file that append exactly one status value and one parent
index) preserves the session invariant. -/
theorem SessionInv_entryStep (s : Session) (t : RfTag) (n : QStr)
    (G : RevisionFile → RevisionFile)
    (hG : ∀ rf, (G rf).status.length = rf.status.length + 1
      ∧ (G rf).mergeParent.length = rf.mergeParent.length + 1
      ∧ (G rf).pathsIdx = rf.pathsIdx)
    (h : SessionInv s t) :
    SessionInv (modifyRf (appendFileName s t n) t G) t := by
  obtain ⟨hB1, hB2, hB3, hB4, hB5⟩ := bindLoader_inv_props h
  obtain ⟨h1, h2, h3, h4, h5⟩ := h
  have hb1 : (appendFileName s t n).flBound = some t := (appendFileName_spec s t n).1
  obtain ⟨hfd, hfn⟩ := appendFileName_buffer_len s t n
  have hget := appendFileName_getRf s t n
  have hproj := modifyRf_proj (appendFileName s t n) t G
  refine ⟨?_, ?_, ?_, ?_, ?_⟩
  · rw [hproj.2.2.2.1, hproj.2.2.2.2, hfd, hfn, hB1]
  · intro k
    rw [getRf_modifyRf]
    by_cases hk : k = t
    · rw [if_pos hk, hk, (hG _).1, (hG _).2.1, hget, (hB4 t).1, (hB4 t).2, h2 t]
    · rw [if_neg hk, hget, (hB4 k).1, (hB4 k).2, h2 k]
  · intro b hb
    rw [hproj.2.2.1, hb1] at hb
    cases hb
    refine ⟨?_, ?_, ?_⟩
    · rw [getRf_modifyRf, if_pos rfl, (hG _).2.2, hget]
      exact hB3
    · rw [hproj.2.2.2.2, hfn, getRf_modifyRf, if_pos rfl, (hG _).1, hget,
        (hB4 t).1, hB2]
    · intro k hk
      show (getRf (modifyRf (appendFileName s t n) t G) k).pathsIdx.length
          = 2 * (getRf (modifyRf (appendFileName s t n) t G) k).status.length
      rw [getRf_modifyRf, if_neg hk, hget]
      exact hB5 k hk
  · intro hnone
    rw [hproj.2.2.1, hb1] at hnone
    cases hnone
  · exact Or.inl (by rw [hproj.2.2.1, hb1])

/-- Modifications of any slot that keep the status and parent lists'
lengths and the packed storage exactly preserve the session invariant. -/
theorem SessionInv_modifyRf_len (s : Session) (t k0 : RfTag)
    (g : RevisionFile → RevisionFile)
    (hg : ∀ rf, (g rf).status.length = rf.status.length
      ∧ (g rf).mergeParent.length = rf.mergeParent.length
      ∧ (g rf).pathsIdx = rf.pathsIdx)
    (h : SessionInv s t) : SessionInv (modifyRf s k0 g) t := by
  obtain ⟨h1, h2, h3, h4, h5⟩ := h
  have hproj := modifyRf_proj s k0 g
  refine ⟨?_, ?_, ?_, ?_, ?_⟩
  · rw [hproj.2.2.2.1, hproj.2.2.2.2]
    exact h1
  · intro k
    rw [getRf_modifyRf]
    by_cases hk : k = k0
    · rw [if_pos hk, (hg _).1, (hg _).2.1]
      exact h2 k
    · rw [if_neg hk]
      exact h2 k
  · intro b hb
    rw [hproj.2.2.1] at hb
    obtain ⟨hb1, hb2, hb3⟩ := h3 b hb
    refine ⟨?_, ?_, ?_⟩
    · rw [getRf_modifyRf]
      by_cases hk : b = k0
      · rw [if_pos hk, (hg _).2.2, hb1]
      · rw [if_neg hk]
        exact hb1
    · rw [hproj.2.2.2.2, getRf_modifyRf]
      by_cases hk : b = k0
      · rw [if_pos hk, (hg _).1]
        exact hb2
      · rw [if_neg hk]
        exact hb2
    · intro k hk
      show (getRf (modifyRf s k0 g) k).pathsIdx.length
          = 2 * (getRf (modifyRf s k0 g) k).status.length
      rw [getRf_modifyRf]
      by_cases hkk : k = k0
      · rw [if_pos hkk, (hg _).2.2, (hg _).1]
        exact hb3 k hk
      · rw [if_neg hkk]
        exact hb3 k hk
  · intro hnone
    rw [hproj.2.2.1] at hnone
    obtain ⟨hn1, hn2, hn3⟩ := h4 hnone
    refine ⟨by rw [hproj.2.2.2.1]; exact hn1, by rw [hproj.2.2.2.2]; exact hn2, ?_⟩
    intro k
    show (getRf (modifyRf s k0 g) k).pathsIdx.length
        = 2 * (getRf (modifyRf s k0 g) k).status.length
    rw [getRf_modifyRf]
    by_cases hkk : k = k0
    · rw [if_pos hkk, (hg _).2.2, (hg _).1]
      exact hn3 k
    · rw [if_neg hkk]
      exact hn3 k
  · rcases h5 with h5 | h5
    · exact Or.inl (by rw [hproj.2.2.1]; exact h5)
    · refine Or.inr ⟨?_, ?_, ?_⟩ <;> rw [getRf_modifyRf]
      · by_cases hk : t = k0
        · rw [if_pos hk]
          have := (hg (getRf s t)).1
          rw [h5.1] at this
          simpa using List.length_eq_zero.1 (by simpa using this)
        · rw [if_neg hk]
          exact h5.1
      · by_cases hk : t = k0
        · rw [if_pos hk]
          have := (hg (getRf s t)).2.1
          rw [h5.2.1] at this
          simpa using List.length_eq_zero.1 (by simpa using this)
        · rw [if_neg hk]
          exact h5.2.1
      · by_cases hk : t = k0
        · rw [if_pos hk, (hg _).2.2]
          exact h5.2.2
        · rw [if_neg hk]
          exact h5.2.2

theorem setExtStatus_inv {s : Session} {t : RfTag} {row : QStr} {p : Nat}
    {s' : Session} (hs : setExtStatus s t row p = some s')
    (h : SessionInv s t) : SessionInv s' t := by
  unfold setExtStatus at hs
  by_cases h3 : (splitSkipEmpty '\t' row).length ≠ 3
  · rw [if_pos h3] at hs
    injection hs with hs
    exact hs ▸ h
  · rw [if_neg h3] at hs
    dsimp only at hs
    cases hq : qAt (((splitSkipEmpty '\t' row).getD 0 []).drop 1) 0 with
    | none =>
      rw [hq] at hs
      cases hs
    | some c0 =>
      rw [hq] at hs
      dsimp only at hs
      injection hs with hs
      subst hs
      by_cases hcR : c0 = 'R'
      · rw [if_pos hcR]
        simp only [modifyRf_modifyRf]
        apply SessionInv_entryStep
        · intro rf
          refine ⟨?_, ?_, rfl⟩ <;>
            simp [setOnlyModified, appendExtStatus, setStatusFlag, appendMergeParent]
        · apply SessionInv_entryStep
          · intro rf
            refine ⟨?_, ?_, rfl⟩ <;>
              simp [appendExtStatus, setStatusFlag, appendMergeParent]
          · exact h
      · rw [if_neg hcR]
        simp only [modifyRf_modifyRf]
        apply SessionInv_entryStep
        · intro rf
          refine ⟨?_, ?_, rfl⟩ <;>
            simp [setOnlyModified, appendExtStatus, setStatusFlag, appendMergeParent]
        · exact h

theorem parseDiffFormatLine_inv {s : Session} {t : RfTag} {line : QStr} {p : Nat}
    {s' : Session} (hs : parseDiffFormatLine s t line p = some s')
    (h : SessionInv s t) : SessionInv s' t := by
  unfold parseDiffFormatLine at hs
  cases hq1 : qAt line 1 with
  | none =>
    rw [hq1] at hs
    cases hs
  | some c1 =>
    rw [hq1] at hs
    dsimp only at hs
    by_cases hc1 : c1 = ':'
    · rw [if_pos hc1] at hs
      injection hs with hs
      subst hs
      simp only [modifyRf_modifyRf]
      apply SessionInv_entryStep
      · intro rf
        refine ⟨?_, ?_, rfl⟩ <;> simp [appendMergeParent, setStatusChar, setStatusFlag]
      · exact h
    · rw [if_neg hc1] at hs
      cases hq98 : qAt line 98 with
      | none =>
        rw [hq98] at hs
        cases hs
      | some c98 =>
        rw [hq98] at hs
        dsimp only at hs
        by_cases hc98 : c98 = '\t'
        · rw [if_pos hc98] at hs
          cases hq97 : qAt line 97 with
          | none =>
            rw [hq97] at hs
            cases hs
          | some c97 =>
            rw [hq97] at hs
            dsimp only at hs
            injection hs with hs
            subst hs
            simp only [modifyRf_modifyRf]
            apply SessionInv_entryStep
            · intro rf
              refine ⟨?_, ?_, rfl⟩ <;>
                simp [appendMergeParent, setStatusChar, setStatusFlag]
            · exact h
        · rw [if_neg hc98] at hs
          exact setExtStatus_inv hs h

theorem parseLoopF_inv (t : RfTag) :
    ∀ (f : Nat) (rest : QStr) (s : Session) (p m : Nat) (r : Session × Nat),
      parseLoopF t f s p m rest = some r → SessionInv s t → SessionInv r.1 t := by
  intro f
  induction f with
  | zero =>
    intro rest s p m r hs h
    cases hs
  | succ fuel ih =>
    intro rest s p m r hs h
    rw [parseLoopF] at hs
    cases hnl : findNL (rest.drop m) with
    | none =>
      rw [hnl] at hs
      injection hs with hs
      rw [← hs]
      exact h
    | some j =>
      rw [hnl] at hs
      dsimp only at hs
      cases hq : qAt (rest.take (m + j)) 0 with
      | none =>
        rw [hq] at hs
        cases hs
      | some c0 =>
        rw [hq] at hs
        dsimp only at hs
        by_cases hc : c0 = ':'
        · rw [if_pos hc] at hs
          cases hpl : parseDiffFormatLine s t (rest.take (m + j)) p with
          | none =>
            rw [hpl] at hs
            cases hs
          | some s1 =>
            rw [hpl] at hs
            exact ih _ _ _ _ _ hs (parseDiffFormatLine_inv hpl h)
        · rw [if_neg hc] at hs
          exact ih _ _ _ _ _ hs h

theorem parseDiffFormat_inv {s : Session} {t : RfTag} {buf : QStr}
    {r : Session × Nat} (hs : parseDiffFormat s t buf = some r)
    (h : SessionInv s t) : SessionInv r.1 t :=
  parseLoopF_inv t (buf.length + 1) buf s 1 0 r hs h

theorem SessionInv_retarget {s : Session} {t t' : RfTag} (h : SessionInv s t)
    (hv : slotVirgin s t') : SessionInv s t' :=
  ⟨h.1, h.2.1, h.2.2.1, h.2.2.2.1, Or.inr hv⟩

/-- When the loader starts unbound or bound to the target, an
`appendFileName` targeting `t` leaves every other slot untouched. -/
theorem appendFileName_frame {s : Session} {t : RfTag} (n : QStr)
    (hb : s.flBound = none ∨ s.flBound = some t) :
    ∀ k, k ≠ t → getRf (appendFileName s t n) k = getRf s k := by
  intro k _
  rw [appendFileName_getRf]
  rcases hb with hb | hb
  · have hbind : bindLoader s t = { s with flBound := some t } := by
      simp [bindLoader, hb, flushNone hb]
    rw [hbind, getRf_rebind]
  · rw [bindLoader_of_bound hb]

/-- One appended entry leaves every other slot untouched and leaves the
loader bound to the target. -/
theorem entry_frame (s : Session) (t : RfTag) (n : QStr)
    (G : RevisionFile → RevisionFile)
    (hb : s.flBound = none ∨ s.flBound = some t) :
    (∀ k, k ≠ t → getRf (modifyRf (appendFileName s t n) t G) k = getRf s k)
    ∧ (modifyRf (appendFileName s t n) t G).flBound = some t := by
  constructor
  · intro k hk
    rw [getRf_modifyRf, if_neg hk, appendFileName_frame n hb k hk]
  · rw [(modifyRf_proj _ _ _).2.2.1]
    exact (appendFileName_spec _ _ _).1

theorem setExtStatus_frame {s : Session} {t : RfTag} {row : QStr} {p : Nat}
    {s' : Session} (hs : setExtStatus s t row p = some s')
    (hb : s.flBound = none ∨ s.flBound = some t) :
    (∀ k, k ≠ t → getRf s' k = getRf s k)
    ∧ (s'.flBound = none ∨ s'.flBound = some t) := by
  unfold setExtStatus at hs
  by_cases h3 : (splitSkipEmpty '\t' row).length ≠ 3
  · rw [if_pos h3] at hs
    injection hs with hs
    subst hs
    exact ⟨fun k _ => rfl, hb⟩
  · rw [if_neg h3] at hs
    dsimp only at hs
    cases hq : qAt (((splitSkipEmpty '\t' row).getD 0 []).drop 1) 0 with
    | none =>
      rw [hq] at hs
      cases hs
    | some c0 =>
      rw [hq] at hs
      dsimp only at hs
      injection hs with hs
      subst hs
      have hbind1 : (appendFileName s t ((splitSkipEmpty '\t' row).getD 2 [])).flBound
          = some t := (appendFileName_spec _ _ _).1
      by_cases hcR : c0 = 'R'
      · rw [if_pos hcR]
        simp only [modifyRf_modifyRf]
        refine ⟨fun k hk =>
          ((entry_frame _ _ _ _ (Or.inr (entry_frame _ _ _ _ hb).2)).1 k hk).trans
            ((entry_frame _ _ _ _ hb).1 k hk),
          Or.inr (entry_frame _ _ _ _ (Or.inr (entry_frame _ _ _ _ hb).2)).2⟩
      · rw [if_neg hcR]
        simp only [modifyRf_modifyRf]
        exact ⟨(entry_frame _ _ _ _ hb).1, Or.inr (entry_frame _ _ _ _ hb).2⟩

theorem parseDiffFormatLine_frame {s : Session} {t : RfTag} {line : QStr} {p : Nat}
    {s' : Session} (hs : parseDiffFormatLine s t line p = some s')
    (hb : s.flBound = none ∨ s.flBound = some t) :
    (∀ k, k ≠ t → getRf s' k = getRf s k)
    ∧ (s'.flBound = none ∨ s'.flBound = some t) := by
  unfold parseDiffFormatLine at hs
  cases hq1 : qAt line 1 with
  | none =>
    rw [hq1] at hs
    cases hs
  | some c1 =>
    rw [hq1] at hs
    dsimp only at hs
    by_cases hc1 : c1 = ':'
    · rw [if_pos hc1] at hs
      injection hs with hs
      subst hs
      simp only [modifyRf_modifyRf]
      refine ⟨fun k hk => ?_, Or.inr ?_⟩
      · rw [getRf_modifyRf, if_neg hk, appendFileName_frame _ hb k hk]
      · rw [(modifyRf_proj _ _ _).2.2.1]
        exact (appendFileName_spec _ _ _).1
    · rw [if_neg hc1] at hs
      cases hq98 : qAt line 98 with
      | none =>
        rw [hq98] at hs
        cases hs
      | some c98 =>
        rw [hq98] at hs
        dsimp only at hs
        by_cases hc98 : c98 = '\t'
        · rw [if_pos hc98] at hs
          cases hq97 : qAt line 97 with
          | none =>
            rw [hq97] at hs
            cases hs
          | some c97 =>
            rw [hq97] at hs
            dsimp only at hs
            injection hs with hs
            subst hs
            simp only [modifyRf_modifyRf]
            refine ⟨fun k hk => ?_, Or.inr ?_⟩
            · rw [getRf_modifyRf, if_neg hk, appendFileName_frame _ hb k hk]
            · rw [(modifyRf_proj _ _ _).2.2.1]
              exact (appendFileName_spec _ _ _).1
        · rw [if_neg hc98] at hs
          exact setExtStatus_frame hs hb

theorem parseLoopF_frame (t : RfTag) :
    ∀ (f : Nat) (rest : QStr) (s : Session) (p m : Nat) (r : Session × Nat),
      parseLoopF t f s p m rest = some r →
      (s.flBound = none ∨ s.flBound = some t) →
      (∀ k, k ≠ t → getRf r.1 k = getRf s k)
      ∧ (r.1.flBound = none ∨ r.1.flBound = some t) := by
  intro f
  induction f with
  | zero =>
    intro rest s p m r hs hb
    cases hs
  | succ fuel ih =>
    intro rest s p m r hs hb
    rw [parseLoopF] at hs
    cases hnl : findNL (rest.drop m) with
    | none =>
      rw [hnl] at hs
      injection hs with hs
      rw [← hs]
      exact ⟨fun k _ => rfl, hb⟩
    | some j =>
      rw [hnl] at hs
      dsimp only at hs
      cases hq : qAt (rest.take (m + j)) 0 with
      | none =>
        rw [hq] at hs
        cases hs
      | some c0 =>
        rw [hq] at hs
        dsimp only at hs
        by_cases hc : c0 = ':'
        · rw [if_pos hc] at hs
          cases hpl : parseDiffFormatLine s t (rest.take (m + j)) p with
          | none =>
            rw [hpl] at hs
            cases hs
          | some s1 =>
            rw [hpl] at hs
            obtain ⟨hf1, hb1⟩ := parseDiffFormatLine_frame hpl hb
            obtain ⟨hf2, hb2⟩ := ih _ _ _ _ _ hs hb1
            exact ⟨fun k hk => (hf2 k hk).trans (hf1 k hk), hb2⟩
        · rw [if_neg hc] at hs
          exact ih _ _ _ _ _ hs hb

theorem parseDiffFormat_frame {s : Session} {t : RfTag} {buf : QStr}
    {r : Session × Nat} (hs : parseDiffFormat s t buf = some r)
    (hb : s.flBound = none ∨ s.flBound = some t) :
    (∀ k, k ≠ t → getRf r.1 k = getRf s k)
    ∧ (r.1.flBound = none ∨ r.1.flBound = some t) :=
  parseLoopF_frame t (buf.length + 1) buf s 1 0 r hs hb

/-- After a flush from an invariant-respecting state, every slot is fully
packed with two ints per entry and keeps one parent index per entry. -/
theorem SessionInv_flush_done {s : Session} {t : RfTag} (h : SessionInv s t) :
    ∀ k, (getRf (flushFileNames s) k).pathsIdx.length
        = 2 * (getRf (flushFileNames s) k).status.length
      ∧ (getRf (flushFileNames s) k).status.length
        = (getRf (flushFileNames s) k).mergeParent.length := by
  obtain ⟨h1, h2, h3, h4, h5⟩ := h
  intro k
  have hrff := flushFileNames_rf_fields s k
  cases hb : s.flBound with
  | none =>
    rw [flushNone hb]
    exact ⟨(h4 hb).2.2 k, h2 k⟩
  | some b =>
    obtain ⟨hpb, hnb, hdoneb⟩ := h3 b hb
    obtain ⟨hpack, hoth, -, -, -⟩ := flush_packed hb
    refine ⟨?_, by rw [hrff.1, hrff.2.1]; exact h2 k⟩
    by_cases hkb : k = b
    · subst hkb
      rw [hpack, hrff.1, List.length_append, List.length_take, h1, min_self, ← hnb]
      omega
    · rw [hoth k hkb, hrff.1]
      exact hdoneb k hkb

theorem mergeStep_preserves (s : Session) (i : Nat) (k : RfTag) :
    (getRf (mergeStep s i) k).status.length = (getRf s k).status.length
    ∧ (getRf (mergeStep s i) k).mergeParent = (getRf s k).mergeParent
    ∧ (getRf (mergeStep s i) k).pathsIdx = (getRf s k).pathsIdx := by
  unfold mergeStep
  by_cases h : findFileIndex s s.rfCached (filePath s s.rfMain i) ≠ -1
  · rw [if_pos h]
    dsimp only
    by_cases h2 : statusCmp s.rfCached i CONFLICT
    · rw [if_pos h2]
      simp only [modifyRf_modifyRf]
      rw [getRf_modifyRf]
      by_cases hk : k = .main
      · rw [if_pos hk]
        refine ⟨?_, rfl, rfl⟩
        simp [appendStatus, List.length_set]
      · rw [if_neg hk]
        exact ⟨rfl, rfl, rfl⟩
    · rw [if_neg h2]
      rw [getRf_modifyRf]
      by_cases hk : k = .main
      · rw [if_pos hk]
        refine ⟨?_, rfl, rfl⟩
        simp [appendStatus, List.length_set]
      · rw [if_neg hk]
        exact ⟨rfl, rfl, rfl⟩
  · rw [if_neg h]
    exact ⟨rfl, rfl, rfl⟩

theorem foldl_mergeStep_preserves :
    ∀ (l : List Nat) (s : Session) (k : RfTag),
      (getRf (l.foldl mergeStep s) k).status.length = (getRf s k).status.length
      ∧ (getRf (l.foldl mergeStep s) k).mergeParent = (getRf s k).mergeParent
      ∧ (getRf (l.foldl mergeStep s) k).pathsIdx = (getRf s k).pathsIdx := by
  intro l
  induction l with
  | nil =>
    intro s k
    exact ⟨rfl, rfl, rfl⟩
  | cons i l ih =>
    intro s k
    simp only [List.foldl_cons]
    obtain ⟨a1, a2, a3⟩ := ih (mergeStep s i) k
    obtain ⟨b1, b2, b3⟩ := mergeStep_preserves s i k
    exact ⟨a1.trans b1, a2.trans b2, a3.trans b3⟩

/-- One iteration of the untracked-files loop of `Git::fakeWorkDirRevFile`
preserves the invariant, the other slot, and the bound-or-unbound loader
condition. -/
theorem untrackedFold_props :
    ∀ (l : List QStr) (s : Session),
      SessionInv s .main →
      (s.flBound = none ∨ s.flBound = some .main) →
      SessionInv (l.foldl (fun s it =>
          let sa := appendFileName s .main it
          let sb := modifyRf sa .main (fun rf => setStatusFlag rf UNKNOWN)
          modifyRf sb .main (fun rf => appendMergeParent rf 1)) s) .main
      ∧ (∀ k, k ≠ RfTag.main →
          getRf (l.foldl (fun s it =>
            let sa := appendFileName s .main it
            let sb := modifyRf sa .main (fun rf => setStatusFlag rf UNKNOWN)
            modifyRf sb .main (fun rf => appendMergeParent rf 1)) s) k = getRf s k)
      ∧ ((l.foldl (fun s it =>
          let sa := appendFileName s .main it
          let sb := modifyRf sa .main (fun rf => setStatusFlag rf UNKNOWN)
          modifyRf sb .main (fun rf => appendMergeParent rf 1)) s).flBound = none
        ∨ (l.foldl (fun s it =>
            let sa := appendFileName s .main it
            let sb := modifyRf sa .main (fun rf => setStatusFlag rf UNKNOWN)
            modifyRf sb .main (fun rf => appendMergeParent rf 1)) s).flBound
          = some .main) := by
  intro l
  induction l with
  | nil =>
    intro s h hb
    exact ⟨h, fun k _ => rfl, hb⟩
  | cons it l ih =>
    intro s h hb
    simp only [List.foldl_cons]
    have hstep : SessionInv (modifyRf (modifyRf (appendFileName s .main it) .main
        (fun rf => setStatusFlag rf UNKNOWN)) .main
        (fun rf => appendMergeParent rf 1)) .main := by
      simp only [modifyRf_modifyRf]
      apply SessionInv_entryStep
      · intro rf
        refine ⟨?_, ?_, rfl⟩ <;> simp [appendMergeParent, setStatusFlag]
      · exact h
    have hstepb : (modifyRf (modifyRf (appendFileName s .main it) .main
        (fun rf => setStatusFlag rf UNKNOWN)) .main
        (fun rf => appendMergeParent rf 1)).flBound = some RfTag.main := by
      rw [(modifyRf_proj _ _ _).2.2.1, (modifyRf_proj _ _ _).2.2.1]
      exact (appendFileName_spec _ _ _).1
    have hstepf : ∀ k, k ≠ RfTag.main →
        getRf (modifyRf (modifyRf (appendFileName s .main it) .main
          (fun rf => setStatusFlag rf UNKNOWN)) .main
          (fun rf => appendMergeParent rf 1)) k = getRf s k := by
      intro k hk
      rw [getRf_modifyRf, if_neg hk, getRf_modifyRf, if_neg hk,
        appendFileName_frame _ hb k hk]
    obtain ⟨a1, a2, a3⟩ := ih _ hstep (Or.inr hstepb)
    exact ⟨a1, fun k hk => (a2 k hk).trans (hstepf k hk), a3⟩

/-! ## Claim C8: entry-order machinery

The flush packs the loader's buffered pairs positionally, so the entry
paths of the packed `RevisionFile` are the buffered paths in buffer
order; the buffer in turn grows by exactly the appended path at each
`appendFileName`, so the packed entries realize `parsePaths` — the
change-line paths in the order the parse loop encounters them. -/

theorem getD_take {α : Type} (l : List α) :
    ∀ (n i : Nat) (d : α), i < n → (l.take n).getD i d = l.getD i d := by
  induction l with
  | nil =>
    intro n i d _
    simp
  | cons x xs ih =>
    intro n i d h
    cases n with
    | zero => omega
    | succ n =>
      cases i with
      | zero => simp
      | succ i =>
        simp only [List.take_succ_cons, List.getD_cons_succ]
        exact ih n i d (by omega)

theorem take_eq_imp_le {α : Type} {l l' : List α} (h : l'.take l.length = l) :
    l.length ≤ l'.length := by
  have h2 := congrArg List.length h
  rw [List.length_take] at h2
  omega

theorem take_eq_trans {α : Type} {l1 l2 l3 : List α}
    (h12 : l2.take l1.length = l1) (h23 : l3.take l2.length = l2) :
    l3.take l1.length = l1 := by
  have hle := take_eq_imp_le h12
  calc l3.take l1.length = (l3.take l2.length).take l1.length := by
        rw [List.take_take, min_eq_left hle]
    _ = l1 := by rw [h23, h12]

theorem getD_stable {α : Type} {l l' : List α} {i : Nat} (x : α)
    (hi : i < l.length) (h : l'.take l.length = l) :
    l'.getD i x = l.getD i x := by
  conv_rhs => rw [← h]
  exact (getD_take l' l.length i x hi).symm

theorem pairPath_stable {dn fn dn' fn' : List QStr} {d n : Nat}
    (hd : d < dn.length) (hn : n < fn.length)
    (hdn : dn'.take dn.length = dn) (hfn : fn'.take fn.length = fn) :
    pairPath dn' fn' d n = pairPath dn fn d n := by
  unfold pairPath
  rw [getD_stable [] hd hdn, getD_stable [] hn hfn]

theorem bufPaths_modifyRf (s : Session) (t : RfTag)
    (f : RevisionFile → RevisionFile) :
    bufPaths (modifyRf s t f) = bufPaths s := by
  cases t <;> rfl

theorem LoaderOk_modifyRf (s : Session) (t : RfTag)
    (f : RevisionFile → RevisionFile) (h : LoaderOk s) :
    LoaderOk (modifyRf s t f) := by
  obtain ⟨h1, h2, h3⟩ := h
  obtain ⟨p1, p2, p3, p4, p5⟩ := modifyRf_proj s t f
  refine ⟨by rw [p4, p5]; exact h1, ?_, ?_⟩
  · intro hn
    rw [p4, p5]
    exact h2 (by rw [← p3]; exact hn)
  · intro p hp
    rw [p4, p5] at hp
    rw [p1, p2]
    exact h3 p hp

theorem bindLoader_buffers_unbound {s : Session} {t : RfTag}
    (h : s.flBound ≠ some t)
    (hpre : s.flBound = none → s.flDirs = [] ∧ s.flNames = []) :
    (bindLoader s t).flDirs = [] ∧ (bindLoader s t).flNames = [] := by
  have hbind : bindLoader s t = { flushFileNames s with flBound := some t } := by
    simp [bindLoader, h]
  cases hb : s.flBound with
  | none =>
    rw [hbind, flushNone hb]
    exact ⟨(hpre hb).1, (hpre hb).2⟩
  | some b =>
    obtain ⟨-, -, hfd, hfn, -⟩ := flush_packed hb
    rw [hbind]
    exact ⟨hfd, hfn⟩

/-- One `Git::appendFileName` call appends exactly one path to the
buffered-path trace (the rebinding flush, when it fires, empties the
buffer first) and keeps the loader well formed. -/
theorem appendFileName_paths (s : Session) (t : RfTag) (n : QStr)
    (h : LoaderOk s) :
    bufPaths (appendFileName s t n)
      = (if s.flBound = some t then bufPaths s else []) ++ [n]
    ∧ LoaderOk (appendFileName s t n) := by
  obtain ⟨hlen, hpre, hv⟩ := h
  obtain ⟨hb1, hdp, hdl, hfp, hfl, di, fi, hfd, hfn, hgd, hgf, hixd, hixf⟩ :=
    appendFileName_spec s t n
  have hdi : di < (appendFileName s t n).dirNames.length := idxOf?_lt hixd
  have hfi : fi < (appendFileName s t n).fileNames.length := idxOf?_lt hixf
  have hnew : pairPath (appendFileName s t n).dirNames
      (appendFileName s t n).fileNames di fi = n := by
    unfold pairPath
    rw [hgd, hgf, List.take_append_drop]
  by_cases hbt : s.flBound = some t
  · rw [bindLoader_of_bound hbt] at hfd hfn
    have hzip : (appendFileName s t n).flDirs.zip (appendFileName s t n).flNames
        = s.flDirs.zip s.flNames ++ [(di, fi)] := by
      rw [hfd, hfn, List.zip_append hlen]
      rfl
    constructor
    · rw [if_pos hbt]
      unfold bufPaths
      rw [hzip, List.map_append]
      congr 1
      · apply List.map_congr_left
        intro p hp
        exact pairPath_stable (hv p hp).1 (hv p hp).2 hdp hfp
      · simp only [List.map_cons, List.map_nil]
        rw [hnew]
    · refine ⟨?_, ?_, ?_⟩
      · rw [hfd, hfn]
        simp [hlen]
      · intro hnone
        rw [hb1] at hnone
        cases hnone
      · intro p hp
        rw [hzip] at hp
        rcases List.mem_append.1 hp with hp | hp
        · exact ⟨lt_of_lt_of_le (hv p hp).1 (take_eq_imp_le hdp),
            lt_of_lt_of_le (hv p hp).2 (take_eq_imp_le hfp)⟩
        · have hpe := List.mem_singleton.1 hp
          subst hpe
          exact ⟨hdi, hfi⟩
  · obtain ⟨hbd, hbn⟩ := bindLoader_buffers_unbound hbt hpre
    rw [hbd] at hfd
    rw [hbn] at hfn
    have hzip : (appendFileName s t n).flDirs.zip (appendFileName s t n).flNames
        = [(di, fi)] := by
      rw [hfd, hfn]
      rfl
    constructor
    · rw [if_neg hbt]
      unfold bufPaths
      rw [hzip]
      simp only [List.map_cons, List.map_nil, List.nil_append]
      rw [hnew]
    · refine ⟨?_, ?_, ?_⟩
      · simp [hfd, hfn]
      · intro hnone
        rw [hb1] at hnone
        cases hnone
      · intro p hp
        rw [hzip] at hp
        have hpe := List.mem_singleton.1 hp
        subst hpe
        exact ⟨hdi, hfi⟩

/-- When `appendFileName` rebinds away from slot `b`, the rebinding flush
writes the packed buffers into `b`. -/
theorem appendFileName_flushed_slot (s : Session) (t : RfTag) (n : QStr)
    {b : RfTag} (hb : s.flBound = some b) (hbt : b ≠ t) :
    (getRf (appendFileName s t n) b).pathsIdx
      = s.flDirs ++ s.flNames.take s.flDirs.length := by
  rw [appendFileName_getRf]
  have hne : s.flBound ≠ some t := by
    rw [hb]
    intro hc
    injection hc with hc
    exact hbt hc
  have hbind : bindLoader s t = { flushFileNames s with flBound := some t } := by
    simp [bindLoader, hne]
  rw [hbind, getRf_rebind]
  exact (flush_packed hb).1

/-- Path trace of `Git::setExtStatus`: the appended paths are exactly
`rowPaths?` of the tail, in order (destination first, origin second when
the rename test fires); a malformed tail appends nothing. -/
theorem setExtStatus_paths {s : Session} {t : RfTag} {row : QStr} {p : Nat}
    {s' : Session} (hs : setExtStatus s t row p = some s')
    (h : LoaderOk s) :
    ∃ ps, rowPaths? row = some ps
      ∧ (ps = [] → s' = s)
      ∧ (ps ≠ [] →
          (s'.flBound = some t
           ∧ bufPaths s' = (if s.flBound = some t then bufPaths s else []) ++ ps
           ∧ ∀ b, s.flBound = some b → b ≠ t →
               (getRf s' b).pathsIdx = s.flDirs ++ s.flNames.take s.flDirs.length))
      ∧ LoaderOk s'
      ∧ s'.dirNames.take s.dirNames.length = s.dirNames
      ∧ s'.fileNames.take s.fileNames.length = s.fileNames := by
  unfold setExtStatus at hs
  by_cases h3 : (splitSkipEmpty '\t' row).length ≠ 3
  · rw [if_pos h3] at hs
    injection hs with hs
    subst hs
    refine ⟨[], ?_, fun _ => rfl, fun hne => absurd rfl hne, h,
      List.take_length _, List.take_length _⟩
    unfold rowPaths?
    rw [if_pos h3]
  · rw [if_neg h3] at hs
    dsimp only at hs
    cases hq : qAt (((splitSkipEmpty '\t' row).getD 0 []).drop 1) 0 with
    | none =>
      rw [hq] at hs
      cases hs
    | some c0 =>
      rw [hq] at hs
      dsimp only at hs
      injection hs with hs
      subst hs
      have hokA := appendFileName_paths s t ((splitSkipEmpty '\t' row).getD 2 []) h
      have hspecA := appendFileName_spec s t ((splitSkipEmpty '\t' row).getD 2 [])
      by_cases hcR : c0 = 'R'
      · rw [if_pos hcR]
        have hrp : rowPaths? row
            = some ((splitSkipEmpty '\t' row).getD 2 []
                :: [(splitSkipEmpty '\t' row).getD 1 []]) := by
          simp only [rowPaths?, if_neg h3, hq, if_pos hcR]
        have hok4 : LoaderOk (modifyRf (modifyRf (modifyRf
            (appendFileName s t ((splitSkipEmpty '\t' row).getD 2 [])) t
              (fun rf => appendMergeParent rf p)) t
              (fun rf => setStatusFlag rf NEW)) t
              (fun rf => appendExtStatus rf
                ((splitSkipEmpty '\t' row).getD 1 [] ++ str " --> "
                  ++ (splitSkipEmpty '\t' row).getD 2 [] ++ str " ("
                  ++ numberQ (toIntQ (((splitSkipEmpty '\t' row).getD 0 []).drop 1))
                  ++ str "%)"))) :=
          LoaderOk_modifyRf _ _ _ (LoaderOk_modifyRf _ _ _
            (LoaderOk_modifyRf _ _ _ hokA.2))
        have hb4 : (modifyRf (modifyRf (modifyRf
            (appendFileName s t ((splitSkipEmpty '\t' row).getD 2 [])) t
              (fun rf => appendMergeParent rf p)) t
              (fun rf => setStatusFlag rf NEW)) t
              (fun rf => appendExtStatus rf
                ((splitSkipEmpty '\t' row).getD 1 [] ++ str " --> "
                  ++ (splitSkipEmpty '\t' row).getD 2 [] ++ str " ("
                  ++ numberQ (toIntQ (((splitSkipEmpty '\t' row).getD 0 []).drop 1))
                  ++ str "%)"))).flBound = some t := by
          rw [(modifyRf_proj _ _ _).2.2.1, (modifyRf_proj _ _ _).2.2.1,
            (modifyRf_proj _ _ _).2.2.1]
          exact hspecA.1
        have hbuf4 : bufPaths (modifyRf (modifyRf (modifyRf
            (appendFileName s t ((splitSkipEmpty '\t' row).getD 2 [])) t
              (fun rf => appendMergeParent rf p)) t
              (fun rf => setStatusFlag rf NEW)) t
              (fun rf => appendExtStatus rf
                ((splitSkipEmpty '\t' row).getD 1 [] ++ str " --> "
                  ++ (splitSkipEmpty '\t' row).getD 2 [] ++ str " ("
                  ++ numberQ (toIntQ (((splitSkipEmpty '\t' row).getD 0 []).drop 1))
                  ++ str "%)")))
            = (if s.flBound = some t then bufPaths s else [])
                ++ [(splitSkipEmpty '\t' row).getD 2 []] := by
          rw [bufPaths_modifyRf, bufPaths_modifyRf, bufPaths_modifyRf]
          exact hokA.1
        have hokB := appendFileName_paths _ t ((splitSkipEmpty '\t' row).getD 1 []) hok4
        have hspecB := appendFileName_spec (modifyRf (modifyRf (modifyRf
            (appendFileName s t ((splitSkipEmpty '\t' row).getD 2 [])) t
              (fun rf => appendMergeParent rf p)) t
              (fun rf => setStatusFlag rf NEW)) t
              (fun rf => appendExtStatus rf
                ((splitSkipEmpty '\t' row).getD 1 [] ++ str " --> "
                  ++ (splitSkipEmpty '\t' row).getD 2 [] ++ str " ("
                  ++ numberQ (toIntQ (((splitSkipEmpty '\t' row).getD 0 []).drop 1))
                  ++ str "%)"))) t ((splitSkipEmpty '\t' row).getD 1 [])
        refine ⟨_, hrp, fun hne => absurd hne (by simp), fun _ => ⟨?_, ?_, ?_⟩,
          ?_, ?_, ?_⟩
        · rw [(modifyRf_proj _ _ _).2.2.1, (modifyRf_proj _ _ _).2.2.1,
            (modifyRf_proj _ _ _).2.2.1, (modifyRf_proj _ _ _).2.2.1]
          exact hspecB.1
        · rw [bufPaths_modifyRf, bufPaths_modifyRf, bufPaths_modifyRf,
            bufPaths_modifyRf, hokB.1, if_pos hb4, hbuf4, List.append_assoc]
          rfl
        · intro b hb hbt
          rw [getRf_modifyRf_other _ _ hbt, getRf_modifyRf_other _ _ hbt,
            getRf_modifyRf_other _ _ hbt, getRf_modifyRf_other _ _ hbt,
            appendFileName_frame _ (Or.inr hb4) b hbt,
            getRf_modifyRf_other _ _ hbt, getRf_modifyRf_other _ _ hbt,
            getRf_modifyRf_other _ _ hbt]
          exact appendFileName_flushed_slot s t _ hb hbt
        · exact LoaderOk_modifyRf _ _ _ (LoaderOk_modifyRf _ _ _
            (LoaderOk_modifyRf _ _ _ (LoaderOk_modifyRf _ _ _ hokB.2)))
        · rw [(modifyRf_proj _ _ _).1, (modifyRf_proj _ _ _).1,
            (modifyRf_proj _ _ _).1, (modifyRf_proj _ _ _).1]
          refine take_eq_trans ?_ hspecB.2.1
          rw [(modifyRf_proj _ _ _).1, (modifyRf_proj _ _ _).1,
            (modifyRf_proj _ _ _).1]
          exact hspecA.2.1
        · rw [(modifyRf_proj _ _ _).2.1, (modifyRf_proj _ _ _).2.1,
            (modifyRf_proj _ _ _).2.1, (modifyRf_proj _ _ _).2.1]
          refine take_eq_trans ?_ hspecB.2.2.2.1
          rw [(modifyRf_proj _ _ _).2.1, (modifyRf_proj _ _ _).2.1,
            (modifyRf_proj _ _ _).2.1]
          exact hspecA.2.2.2.1
      · rw [if_neg hcR]
        have hrp : rowPaths? row
            = some [(splitSkipEmpty '\t' row).getD 2 []] := by
          simp only [rowPaths?, if_neg h3, hq, if_neg hcR]
        refine ⟨_, hrp, fun hne => absurd hne (by simp), fun _ => ⟨?_, ?_, ?_⟩,
          ?_, ?_, ?_⟩
        · rw [(modifyRf_proj _ _ _).2.2.1, (modifyRf_proj _ _ _).2.2.1,
            (modifyRf_proj _ _ _).2.2.1, (modifyRf_proj _ _ _).2.2.1]
          exact hspecA.1
        · rw [bufPaths_modifyRf, bufPaths_modifyRf, bufPaths_modifyRf,
            bufPaths_modifyRf]
          exact hokA.1
        · intro b hb hbt
          rw [getRf_modifyRf_other _ _ hbt, getRf_modifyRf_other _ _ hbt,
            getRf_modifyRf_other _ _ hbt, getRf_modifyRf_other _ _ hbt]
          exact appendFileName_flushed_slot s t _ hb hbt
        · exact LoaderOk_modifyRf _ _ _ (LoaderOk_modifyRf _ _ _
            (LoaderOk_modifyRf _ _ _ (LoaderOk_modifyRf _ _ _ hokA.2)))
        · rw [(modifyRf_proj _ _ _).1, (modifyRf_proj _ _ _).1,
            (modifyRf_proj _ _ _).1, (modifyRf_proj _ _ _).1]
          exact hspecA.2.1
        · rw [(modifyRf_proj _ _ _).2.1, (modifyRf_proj _ _ _).2.1,
            (modifyRf_proj _ _ _).2.1, (modifyRf_proj _ _ _).2.1]
          exact hspecA.2.2.2.1

/-- Path trace of `Git::parseDiffFormatLine`: the appended paths are
exactly `linePaths?` of the line, in order. -/
theorem parseDiffFormatLine_paths {s : Session} {t : RfTag} {line : QStr}
    {p : Nat} {s' : Session} (hs : parseDiffFormatLine s t line p = some s')
    (h : LoaderOk s) :
    ∃ ps, linePaths? line = some ps
      ∧ (ps = [] → s' = s)
      ∧ (ps ≠ [] →
          (s'.flBound = some t
           ∧ bufPaths s' = (if s.flBound = some t then bufPaths s else []) ++ ps
           ∧ ∀ b, s.flBound = some b → b ≠ t →
               (getRf s' b).pathsIdx = s.flDirs ++ s.flNames.take s.flDirs.length))
      ∧ LoaderOk s'
      ∧ s'.dirNames.take s.dirNames.length = s.dirNames
      ∧ s'.fileNames.take s.fileNames.length = s.fileNames := by
  unfold parseDiffFormatLine at hs
  cases hq1 : qAt line 1 with
  | none =>
    rw [hq1] at hs
    cases hs
  | some c1 =>
    rw [hq1] at hs
    dsimp only at hs
    by_cases hc1 : c1 = ':'
    · rw [if_pos hc1] at hs
      injection hs with hs
      subst hs
      have hrp : linePaths? line = some [lastSection line] := by
        simp only [linePaths?, hq1, if_pos hc1]
      have hokA := appendFileName_paths s t (lastSection line) h
      have hspecA := appendFileName_spec s t (lastSection line)
      refine ⟨_, hrp, fun hne => absurd hne (by simp), fun _ => ⟨?_, ?_, ?_⟩,
        ?_, ?_, ?_⟩
      · rw [(modifyRf_proj _ _ _).2.2.1, (modifyRf_proj _ _ _).2.2.1]
        exact hspecA.1
      · rw [bufPaths_modifyRf, bufPaths_modifyRf]
        exact hokA.1
      · intro b hb hbt
        rw [getRf_modifyRf_other _ _ hbt, getRf_modifyRf_other _ _ hbt]
        exact appendFileName_flushed_slot s t _ hb hbt
      · exact LoaderOk_modifyRf _ _ _ (LoaderOk_modifyRf _ _ _ hokA.2)
      · rw [(modifyRf_proj _ _ _).1, (modifyRf_proj _ _ _).1]
        exact hspecA.2.1
      · rw [(modifyRf_proj _ _ _).2.1, (modifyRf_proj _ _ _).2.1]
        exact hspecA.2.2.2.1
    · rw [if_neg hc1] at hs
      cases hq98 : qAt line 98 with
      | none =>
        rw [hq98] at hs
        cases hs
      | some c98 =>
        rw [hq98] at hs
        dsimp only at hs
        by_cases hc98 : c98 = '\t'
        · rw [if_pos hc98] at hs
          cases hq97 : qAt line 97 with
          | none =>
            rw [hq97] at hs
            cases hs
          | some c97 =>
            rw [hq97] at hs
            dsimp only at hs
            injection hs with hs
            subst hs
            have hrp : linePaths? line = some [line.drop 99] := by
              simp only [linePaths?, hq1, if_neg hc1, hq98, if_pos hc98, hq97]
            have hokA := appendFileName_paths s t (line.drop 99) h
            have hspecA := appendFileName_spec s t (line.drop 99)
            refine ⟨_, hrp, fun hne => absurd hne (by simp), fun _ => ⟨?_, ?_, ?_⟩,
              ?_, ?_, ?_⟩
            · rw [(modifyRf_proj _ _ _).2.2.1, (modifyRf_proj _ _ _).2.2.1]
              exact hspecA.1
            · rw [bufPaths_modifyRf, bufPaths_modifyRf]
              exact hokA.1
            · intro b hb hbt
              rw [getRf_modifyRf_other _ _ hbt, getRf_modifyRf_other _ _ hbt]
              exact appendFileName_flushed_slot s t _ hb hbt
            · exact LoaderOk_modifyRf _ _ _ (LoaderOk_modifyRf _ _ _ hokA.2)
            · rw [(modifyRf_proj _ _ _).1, (modifyRf_proj _ _ _).1]
              exact hspecA.2.1
            · rw [(modifyRf_proj _ _ _).2.1, (modifyRf_proj _ _ _).2.1]
              exact hspecA.2.2.2.1
        · rw [if_neg hc98] at hs
          obtain ⟨ps, hrp, he, hne, hok, hdp, hfp⟩ := setExtStatus_paths hs h
          refine ⟨ps, ?_, he, hne, hok, hdp, hfp⟩
          simp only [linePaths?, hq1, if_neg hc1, hq98, if_neg hc98]
          exact hrp

/-- Path trace of the parse loop: a completed run appends exactly the
`parsePathsF` paths of the remaining buffer, in order, on top of the
buffer contents it started with (emptied by the rebinding flush when the
loader was bound elsewhere; the previously bound slot then receives the
packed old buffer). -/
theorem parseLoopF_paths (t : RfTag) :
    ∀ (f : Nat) (rest : QStr) (s : Session) (p m : Nat) (r : Session × Nat),
      parseLoopF t f s p m rest = some r → LoaderOk s →
      ∃ ps, parsePathsF f m rest = some ps
        ∧ (ps = [] → r.1 = s)
        ∧ (ps ≠ [] →
            (r.1.flBound = some t
             ∧ bufPaths r.1 = (if s.flBound = some t then bufPaths s else []) ++ ps
             ∧ ∀ b, s.flBound = some b → b ≠ t →
                 (getRf r.1 b).pathsIdx
                   = s.flDirs ++ s.flNames.take s.flDirs.length))
        ∧ LoaderOk r.1
        ∧ r.1.dirNames.take s.dirNames.length = s.dirNames
        ∧ r.1.fileNames.take s.fileNames.length = s.fileNames := by
  intro f
  induction f with
  | zero =>
    intro rest s p m r hs _
    cases hs
  | succ fuel ih =>
    intro rest s p m r hs h
    rw [parseLoopF] at hs
    cases hnl : findNL (rest.drop m) with
    | none =>
      rw [hnl] at hs
      injection hs with hs
      refine ⟨[], ?_, fun _ => by rw [← hs], fun hne => absurd rfl hne, ?_, ?_, ?_⟩
      · rw [parsePathsF, hnl]
      · rw [← hs]
        exact h
      · rw [← hs]
        exact List.take_length _
      · rw [← hs]
        exact List.take_length _
    | some j =>
      rw [hnl] at hs
      dsimp only at hs
      cases hq : qAt (rest.take (m + j)) 0 with
      | none =>
        rw [hq] at hs
        cases hs
      | some c0 =>
        rw [hq] at hs
        dsimp only at hs
        by_cases hc : c0 = ':'
        · rw [if_pos hc] at hs
          cases hpl : parseDiffFormatLine s t (rest.take (m + j)) p with
          | none =>
            rw [hpl] at hs
            cases hs
          | some s1 =>
            rw [hpl] at hs
            obtain ⟨ps1, hlp1, he1, hne1, hok1, hdp1, hfp1⟩ :=
              parseDiffFormatLine_paths hpl h
            obtain ⟨ps2, hpp2, he2, hne2, hok2, hdp2, hfp2⟩ :=
              ih _ _ _ _ _ hs hok1
            refine ⟨ps1 ++ ps2, ?_, ?_, ?_, hok2, take_eq_trans hdp1 hdp2,
              take_eq_trans hfp1 hfp2⟩
            · rw [parsePathsF, hnl]
              dsimp only
              rw [hq]
              dsimp only
              rw [if_pos hc, hlp1]
              dsimp only
              rw [hpp2]
              rfl
            · intro hz
              have h1 : ps1 = [] := by
                cases ps1 with
                | nil => rfl
                | cons a l => simp at hz
              have h2 : ps2 = [] := by
                rw [h1] at hz
                simpa using hz
              rw [he2 h2]
              exact he1 h1
            · intro hnz
              by_cases hz1 : ps1 = []
              · have hs1 : s1 = s := he1 hz1
                have hz2 : ps2 ≠ [] := by
                  intro hz2
                  exact hnz (by rw [hz1, hz2]; rfl)
                obtain ⟨hb2, hbuf2, hfl2⟩ := hne2 hz2
                rw [hs1] at hbuf2 hfl2
                simp only [hz1, List.nil_append]
                exact ⟨hb2, hbuf2, hfl2⟩
              · obtain ⟨hb1, hbuf1, hfl1⟩ := hne1 hz1
                by_cases hz2 : ps2 = []
                · have hr : r.1 = s1 := he2 hz2
                  refine ⟨?_, ?_, ?_⟩
                  · rw [hr]
                    exact hb1
                  · rw [hr, hbuf1, hz2, List.append_nil]
                  · intro b hb hbt
                    rw [hr]
                    exact hfl1 b hb hbt
                · obtain ⟨hb2, hbuf2, hfl2⟩ := hne2 hz2
                  refine ⟨hb2, ?_, ?_⟩
                  · rw [hbuf2, if_pos hb1, hbuf1, List.append_assoc]
                  · intro b hb hbt
                    have hfr := parseLoopF_frame t fuel _ s1 _ _ r hs (Or.inr hb1)
                    rw [hfr.1 b hbt]
                    exact hfl1 b hb hbt
        · rw [if_neg hc] at hs
          obtain ⟨ps, hpp, he, hne, hok, hdp, hfp⟩ := ih _ _ _ _ _ hs h
          refine ⟨ps, ?_, he, hne, hok, hdp, hfp⟩
          rw [parsePathsF, hnl]
          dsimp only
          rw [hq]
          dsimp only
          rw [if_neg hc]
          exact hpp

/-- Path trace of `Git::parseDiffFormat`. -/
theorem parseDiffFormat_paths {s : Session} {t : RfTag} {buf : QStr}
    {r : Session × Nat} (hs : parseDiffFormat s t buf = some r)
    (h : LoaderOk s) :
    ∃ ps, parsePaths buf = some ps
      ∧ (ps = [] → r.1 = s)
      ∧ (ps ≠ [] →
          (r.1.flBound = some t
           ∧ bufPaths r.1 = (if s.flBound = some t then bufPaths s else []) ++ ps
           ∧ ∀ b, s.flBound = some b → b ≠ t →
               (getRf r.1 b).pathsIdx
                 = s.flDirs ++ s.flNames.take s.flDirs.length))
      ∧ LoaderOk r.1
      ∧ r.1.dirNames.take s.dirNames.length = s.dirNames
      ∧ r.1.fileNames.take s.fileNames.length = s.fileNames :=
  parseLoopF_paths t (buf.length + 1) buf s 1 0 r hs h

theorem bufPaths_empty {s : Session} (h : s.flDirs = []) : bufPaths s = [] := by
  unfold bufPaths
  rw [h]
  rfl

theorem bindLoader_getRf_safe {s : Session} {t : RfTag}
    (hb : s.flBound = none ∨ s.flBound = some t) (k : RfTag) :
    getRf (bindLoader s t) k = getRf s k := by
  rcases hb with hb | hb
  · have hbind : bindLoader s t = { s with flBound := some t } := by
      simp [bindLoader, hb, flushNone hb]
    rw [hbind, getRf_rebind]
  · rw [bindLoader_of_bound hb]

theorem zip_getD_mem : ∀ (a b : List Nat), a.length = b.length →
    ∀ i, i < a.length → (a.getD i 0, b.getD i 0) ∈ a.zip b := by
  intro a
  induction a with
  | nil =>
    intro b h i hi
    simp at hi
  | cons x xs ih =>
    intro b h i hi
    cases b with
    | nil => simp at h
    | cons y ys =>
      simp only [List.length_cons] at h hi
      cases i with
      | zero => simp [List.zip_cons_cons]
      | succ i =>
        simp only [List.getD_cons_succ, List.zip_cons_cons, List.mem_cons]
        exact Or.inr (ih ys (by omega) i (by omega))

theorem zipmap_eq_rangemap (g : Nat → Nat → QStr) :
    ∀ (a b : List Nat), a.length = b.length →
      (a.zip b).map (fun q => g q.1 q.2)
        = (List.range a.length).map (fun i => g (a.getD i 0) (b.getD i 0)) := by
  intro a
  induction a with
  | nil =>
    intro b h
    simp
  | cons x xs ih =>
    intro b h
    cases b with
    | nil => simp at h
    | cons y ys =>
      simp only [List.length_cons] at h
      have h' : xs.length = ys.length := by omega
      simp only [List.zip_cons_cons, List.map_cons, List.length_cons,
        List.range_succ_eq_map, List.map_map]
      rw [ih ys h']
      congr 1

/-- Entries packed from equal-length valid buffers read back, under any
tables extending the buffers' tables, as the buffered paths in buffer
order. -/
theorem entryPaths_pack {fd fn_ : List Nat} {dn fnm : List QStr}
    (rf : RevisionFile) (sX : Session)
    (hp : rf.pathsIdx = fd ++ fn_)
    (hl : fd.length = fn_.length)
    (hv : ∀ q ∈ fd.zip fn_, q.1 < dn.length ∧ q.2 < fnm.length)
    (hdn : sX.dirNames.take dn.length = dn)
    (hfn : sX.fileNames.take fnm.length = fnm) :
    entryPaths sX rf = (fd.zip fn_).map (fun q => pairPath dn fnm q.1 q.2) := by
  have hcount : count rf = fd.length := by
    unfold count
    rw [hp, List.length_append, ← hl]
    omega
  unfold entryPaths
  rw [hcount, zipmap_eq_rangemap _ fd fn_ hl]
  apply List.map_congr_left
  intro i hi
  have hi' : i < fd.length := List.mem_range.1 hi
  have hda : dirAt rf i = fd.getD i 0 := by
    unfold dirAt
    rw [hp]
    exact List.getD_append _ _ _ _ hi'
  have hna : nameAt rf i = fn_.getD i 0 := by
    unfold nameAt
    rw [hp, hcount, List.getD_append_right _ _ _ _ (Nat.le_add_right _ _),
      Nat.add_sub_cancel_left]
  have hb := hv _ (zip_getD_mem fd fn_ hl i hi')
  unfold filePath pairPath
  rw [hda, hna, getD_stable [] hb.1 hdn, getD_stable [] hb.2 hfn]

theorem entryPaths_nil (sX : Session) (rf : RevisionFile)
    (h : rf.pathsIdx = []) : entryPaths sX rf = [] := by
  unfold entryPaths count
  rw [h]
  rfl

theorem mergeStep_tables (s : Session) (i : Nat) :
    (mergeStep s i).dirNames = s.dirNames
    ∧ (mergeStep s i).fileNames = s.fileNames := by
  unfold mergeStep
  by_cases h : findFileIndex s s.rfCached (filePath s s.rfMain i) ≠ -1
  · rw [if_pos h]
    dsimp only
    by_cases h2 : statusCmp s.rfCached i CONFLICT
    · rw [if_pos h2]
      exact ⟨((modifyRf_proj _ _ _).1).trans (modifyRf_proj _ _ _).1,
        ((modifyRf_proj _ _ _).2.1).trans (modifyRf_proj _ _ _).2.1⟩
    · rw [if_neg h2]
      exact ⟨(modifyRf_proj _ _ _).1, (modifyRf_proj _ _ _).2.1⟩
  · rw [if_neg h]
    exact ⟨rfl, rfl⟩

theorem foldl_mergeStep_tables :
    ∀ (l : List Nat) (s : Session),
      (l.foldl mergeStep s).dirNames = s.dirNames
      ∧ (l.foldl mergeStep s).fileNames = s.fileNames := by
  intro l
  induction l with
  | nil =>
    intro s
    exact ⟨rfl, rfl⟩
  | cons i l ih =>
    intro s
    simp only [List.foldl_cons]
    exact ⟨(ih (mergeStep s i)).1.trans (mergeStep_tables s i).1,
      (ih (mergeStep s i)).2.trans (mergeStep_tables s i).2⟩

/-- Path trace of the untracked-files loop of `Git::fakeWorkDirRevFile`:
it appends exactly the untracked names, in list order, and writes no
packed storage. -/
theorem untrackedFold_paths :
    ∀ (l : List QStr) (s : Session),
      LoaderOk s →
      (s.flBound = none ∨ s.flBound = some .main) →
      bufPaths (l.foldl (fun s it =>
          let sa := appendFileName s .main it
          let sb := modifyRf sa .main (fun rf => setStatusFlag rf UNKNOWN)
          modifyRf sb .main (fun rf => appendMergeParent rf 1)) s)
        = bufPaths s ++ l
      ∧ LoaderOk (l.foldl (fun s it =>
          let sa := appendFileName s .main it
          let sb := modifyRf sa .main (fun rf => setStatusFlag rf UNKNOWN)
          modifyRf sb .main (fun rf => appendMergeParent rf 1)) s)
      ∧ ((l.foldl (fun s it =>
          let sa := appendFileName s .main it
          let sb := modifyRf sa .main (fun rf => setStatusFlag rf UNKNOWN)
          modifyRf sb .main (fun rf => appendMergeParent rf 1)) s).flBound = none
        ∨ (l.foldl (fun s it =>
          let sa := appendFileName s .main it
          let sb := modifyRf sa .main (fun rf => setStatusFlag rf UNKNOWN)
          modifyRf sb .main (fun rf => appendMergeParent rf 1)) s).flBound
          = some .main)
      ∧ (∀ k, (getRf (l.foldl (fun s it =>
          let sa := appendFileName s .main it
          let sb := modifyRf sa .main (fun rf => setStatusFlag rf UNKNOWN)
          modifyRf sb .main (fun rf => appendMergeParent rf 1)) s) k).pathsIdx
          = (getRf s k).pathsIdx)
      ∧ (l.foldl (fun s it =>
          let sa := appendFileName s .main it
          let sb := modifyRf sa .main (fun rf => setStatusFlag rf UNKNOWN)
          modifyRf sb .main (fun rf => appendMergeParent rf 1)) s).dirNames.take
            s.dirNames.length = s.dirNames
      ∧ (l.foldl (fun s it =>
          let sa := appendFileName s .main it
          let sb := modifyRf sa .main (fun rf => setStatusFlag rf UNKNOWN)
          modifyRf sb .main (fun rf => appendMergeParent rf 1)) s).fileNames.take
            s.fileNames.length = s.fileNames := by
  intro l
  induction l with
  | nil =>
    intro s h hb
    exact ⟨by rw [List.foldl_nil, List.append_nil], h, hb, fun k => rfl,
      List.take_length _, List.take_length _⟩
  | cons it l ih =>
    intro s h hb
    simp only [List.foldl_cons]
    have hstep := appendFileName_paths s .main it h
    have hbufstep : bufPaths (modifyRf (modifyRf (appendFileName s .main it) .main
        (fun rf => setStatusFlag rf UNKNOWN)) .main
        (fun rf => appendMergeParent rf 1)) = bufPaths s ++ [it] := by
      rw [bufPaths_modifyRf, bufPaths_modifyRf, hstep.1]
      rcases hb with hb | hb
      · rw [if_neg (by rw [hb]; simp), bufPaths_empty (h.2.1 hb).1]
      · rw [if_pos hb]
    have hokstep : LoaderOk (modifyRf (modifyRf (appendFileName s .main it) .main
        (fun rf => setStatusFlag rf UNKNOWN)) .main
        (fun rf => appendMergeParent rf 1)) :=
      LoaderOk_modifyRf _ _ _ (LoaderOk_modifyRf _ _ _ hstep.2)
    have hbstep : (modifyRf (modifyRf (appendFileName s .main it) .main
        (fun rf => setStatusFlag rf UNKNOWN)) .main
        (fun rf => appendMergeParent rf 1)).flBound = some RfTag.main := by
      rw [(modifyRf_proj _ _ _).2.2.1, (modifyRf_proj _ _ _).2.2.1]
      exact (appendFileName_spec _ _ _).1
    have hpstep : ∀ k, (getRf (modifyRf (modifyRf (appendFileName s .main it) .main
        (fun rf => setStatusFlag rf UNKNOWN)) .main
        (fun rf => appendMergeParent rf 1)) k).pathsIdx
          = (getRf s k).pathsIdx := by
      intro k
      by_cases hk : k = RfTag.main
      · subst hk
        simp only [getRf_modifyRf_same, appendMergeParent, setStatusFlag]
        rw [appendFileName_getRf, bindLoader_getRf_safe hb]
      · rw [getRf_modifyRf_other _ _ hk, getRf_modifyRf_other _ _ hk,
          appendFileName_frame _ hb _ hk]
    have hdstep : (modifyRf (modifyRf (appendFileName s .main it) .main
        (fun rf => setStatusFlag rf UNKNOWN)) .main
        (fun rf => appendMergeParent rf 1)).dirNames.take s.dirNames.length
          = s.dirNames := by
      rw [(modifyRf_proj _ _ _).1, (modifyRf_proj _ _ _).1]
      exact (appendFileName_spec _ _ _).2.1
    have hfstep : (modifyRf (modifyRf (appendFileName s .main it) .main
        (fun rf => setStatusFlag rf UNKNOWN)) .main
        (fun rf => appendMergeParent rf 1)).fileNames.take s.fileNames.length
          = s.fileNames := by
      rw [(modifyRf_proj _ _ _).2.1, (modifyRf_proj _ _ _).2.1]
      exact (appendFileName_spec _ _ _).2.2.2.1
    obtain ⟨a1, a2, a3, a4, a5, a6⟩ := ih _ hokstep (Or.inr hbstep)
    refine ⟨?_, a2, a3, ?_, take_eq_trans hdstep a5, take_eq_trans hfstep a6⟩
    · exact a1.trans (by rw [hbufstep, List.append_assoc, List.singleton_append])
    · intro k
      exact (a4 k).trans (hpstep k)

theorem LoaderOk_mkSession (dn fn : List QStr) : LoaderOk (mkSession dn fn) :=
  ⟨rfl, fun _ => ⟨rfl, rfl⟩, fun q hq => absurd hq (List.not_mem_nil q)⟩

/-- C8: every `RevisionFile` produced by the diff parser
(`Git::insertNewFiles` = parse + flush) or by the working-directory
synthesizer (`Git::fakeWorkDirRevFile`, both the synthesized file and the
staged parse) has exactly as many packed entries as parent indices and as
many status values as parent indices — each appended entry appends
exactly one status value, one parent index and one interned pair — and
its entries appear in the order their source lines were parsed: the
parser's entry paths, read back in storage order through `filePath`, are
exactly `parsePaths` of the parsed buffer (per change line, in line
order: the combined-merge or fast path, or the rename/copy destination
followed by the origin when the rename test fires), while the
synthesizer's working-directory file holds the baseline parse's paths in
parse order followed by the untracked files in list order and its staged
file holds the cached parse's paths in parse order. -/
theorem revisionFile_entries_align (dn fn : List QStr) (data : QStr)
    (wd : WorkingDirInfo) (rf : RevisionFile) (sF : Session)
    (r : Session × Nat) :
    (insertNewFiles dn fn data = some rf →
      (count rf = rf.mergeParent.length
        ∧ rf.status.length = rf.mergeParent.length))
    ∧ (parseDiffFormat (mkSession dn fn) .main data = some r →
        (insertNewFiles dn fn data = some ((flushFileNames r.1).rfMain)
         ∧ parsePaths data
             = some (entryPaths (flushFileNames r.1)
                 ((flushFileNames r.1).rfMain))))
    ∧ (fakeWorkDirFull dn fn wd = some sF →
      (count sF.rfMain = sF.rfMain.mergeParent.length
        ∧ sF.rfMain.status.length = sF.rfMain.mergeParent.length
        ∧ count sF.rfCached = sF.rfCached.mergeParent.length
        ∧ sF.rfCached.status.length = sF.rfCached.mergeParent.length
        ∧ (parsePaths wd.diffIndex).map (· ++ wd.otherFiles)
            = some (entryPaths sF sF.rfMain)
        ∧ parsePaths wd.diffIndexCached
            = some (entryPaths sF sF.rfCached))) := by
  refine ⟨?_, ?_, ?_⟩
  · intro h
    unfold insertNewFiles at h
    obtain ⟨r0, hp, hrf⟩ := Option.map_eq_some'.1 h
    have hdone := SessionInv_flush_done
      (parseDiffFormat_inv hp (SessionInv_mkSession dn fn .main)) RfTag.main
    have hg : getRf (flushFileNames r0.1) RfTag.main = (flushFileNames r0.1).rfMain := rfl
    rw [hg] at hdone
    rw [← hrf]
    unfold count
    obtain ⟨h1, h2⟩ := hdone
    refine ⟨?_, h2⟩
    omega
  · intro hp
    obtain ⟨ps, hpp, he, hne, hok, hdp, hfp⟩ :=
      parseDiffFormat_paths hp (LoaderOk_mkSession dn fn)
    constructor
    · unfold insertNewFiles
      rw [hp]
      rfl
    · by_cases hz : ps = []
      · have hr := he hz
        have hb : r.1.flBound = none := by
          rw [hr]
          rfl
        have hEP : entryPaths (flushFileNames r.1) ((flushFileNames r.1).rfMain)
            = ps := by
          rw [flushNone hb, hr, hz]
          exact entryPaths_nil _ _ rfl
        rw [hEP]
        exact hpp
      · obtain ⟨hb1, hbuf1, -⟩ := hne hz
        rw [if_neg (show ¬((mkSession dn fn).flBound = some RfTag.main) by
          simp [mkSession]), List.nil_append] at hbuf1
        have hpi : ((flushFileNames r.1).rfMain).pathsIdx
            = r.1.flDirs ++ r.1.flNames := by
          have hx := (flush_packed hb1).1
          rw [hok.1, List.take_length] at hx
          exact hx
        have hEP : entryPaths (flushFileNames r.1) ((flushFileNames r.1).rfMain)
            = ps := by
          rw [entryPaths_pack ((flushFileNames r.1).rfMain) (flushFileNames r.1)
            hpi hok.1 hok.2.2
            (by rw [(flushFileNames_tables r.1).1]; exact List.take_length _)
            (by rw [(flushFileNames_tables r.1).2]; exact List.take_length _)]
          exact hbuf1
        rw [hEP]
        exact hpp
  · intro h
    unfold fakeWorkDirFull at h
    obtain ⟨r1, hp1, h⟩ := Option.bind_eq_some.1 h
    dsimp only at h
    obtain ⟨r4, hp2, h⟩ := Option.bind_eq_some.1 h
    injection h with h
    have hinv1 : SessionInv r1.1 .main :=
      parseDiffFormat_inv hp1 (SessionInv_mkSession dn fn .main)
    have hfr1 := parseDiffFormat_frame hp1 (Or.inl rfl)
    have hinv2 : SessionInv (modifyRf r1.1 .main
        (fun rf => setOnlyModified rf false)) .main :=
      SessionInv_modifyRf_len _ _ _ _ (fun rf => ⟨rfl, rfl, rfl⟩) hinv1
    have hb2 : (modifyRf r1.1 .main (fun rf => setOnlyModified rf false)).flBound = none
        ∨ (modifyRf r1.1 .main (fun rf => setOnlyModified rf false)).flBound
          = some RfTag.main := by
      rw [(modifyRf_proj _ _ _).2.2.1]
      exact hfr1.2
    have hfold := untrackedFold_props wd.otherFiles
      (modifyRf r1.1 .main (fun rf => setOnlyModified rf false)) hinv2 hb2
    have hchain : getRf (wd.otherFiles.foldl (fun s it =>
        let sa := appendFileName s .main it
        let sb := modifyRf sa .main (fun rf => setStatusFlag rf UNKNOWN)
        modifyRf sb .main (fun rf => appendMergeParent rf 1))
        (modifyRf r1.1 .main (fun rf => setOnlyModified rf false))) RfTag.cached
        = emptyRF := by
      rw [hfold.2.1 RfTag.cached (by simp), getRf_modifyRf, if_neg (by simp),
        hfr1.1 RfTag.cached (by simp)]
      rfl
    have hvirgin : slotVirgin (wd.otherFiles.foldl (fun s it =>
        let sa := appendFileName s .main it
        let sb := modifyRf sa .main (fun rf => setStatusFlag rf UNKNOWN)
        modifyRf sb .main (fun rf => appendMergeParent rf 1))
        (modifyRf r1.1 .main (fun rf => setOnlyModified rf false))) RfTag.cached := by
      unfold slotVirgin
      rw [hchain]
      exact ⟨rfl, rfl, rfl⟩
    have hinv4 : SessionInv r4.1 .cached :=
      parseDiffFormat_inv hp2 (SessionInv_retarget hfold.1 hvirgin)
    have hdone := SessionInv_flush_done hinv4
    have hpres := fun k => foldl_mergeStep_preserves
      (List.range (count (flushFileNames r4.1).rfMain)) (flushFileNames r4.1) k
    have hgm : ∀ s' : Session, getRf s' RfTag.main = s'.rfMain := fun _ => rfl
    have hgc : ∀ s' : Session, getRf s' RfTag.cached = s'.rfCached := fun _ => rfl
    obtain ⟨pm1, pm2, pm3⟩ := hpres RfTag.main
    obtain ⟨pc1, pc2, pc3⟩ := hpres RfTag.cached
    rw [hgm, hgm] at pm1 pm2 pm3
    rw [hgc, hgc] at pc1 pc2 pc3
    rw [h] at pm1 pm2 pm3 pc1 pc2 pc3
    obtain ⟨dm1, dm2⟩ := hdone RfTag.main
    obtain ⟨dc1, dc2⟩ := hdone RfTag.cached
    rw [hgm] at dm1 dm2
    rw [hgc] at dc1 dc2
    obtain ⟨PS1, hpp1, he1, hne1, hok1, hdp1, hfp1⟩ :=
      parseDiffFormat_paths hp1 (LoaderOk_mkSession dn fn)
    have hbuf1' : bufPaths r1.1 = PS1 := by
      by_cases hz1 : PS1 = []
      · rw [he1 hz1, hz1]
        exact bufPaths_empty rfl
      · obtain ⟨-, hbuf1, -⟩ := hne1 hz1
        rw [if_neg (show ¬((mkSession dn fn).flBound = some RfTag.main) by
          simp [mkSession]), List.nil_append] at hbuf1
        exact hbuf1
    have hokS2 : LoaderOk (modifyRf r1.1 .main (fun rf => setOnlyModified rf false)) :=
      LoaderOk_modifyRf _ _ _ hok1
    have hbufS2 : bufPaths (modifyRf r1.1 .main (fun rf => setOnlyModified rf false))
        = PS1 :=
      (bufPaths_modifyRf r1.1 RfTag.main (fun rf => setOnlyModified rf false)).trans
        hbuf1'
    obtain ⟨a1, a2, a3, a4, a5, a6⟩ := untrackedFold_paths wd.otherFiles
      (modifyRf r1.1 .main (fun rf => setOnlyModified rf false)) hokS2 hb2
    obtain ⟨PS2, hpp2, he2, hne2, hok4, hdp4, hfp4⟩ := parseDiffFormat_paths hp2 a2
    have hMainIdx : (getRf r1.1 RfTag.main).pathsIdx = [] := by
      by_cases hz1 : PS1 = []
      · rw [he1 hz1]
        rfl
      · exact (hinv1.2.2.1 RfTag.main (hne1 hz1).1).1
    have hS2MainIdx : ∀ k, (getRf (modifyRf r1.1 .main
        (fun rf => setOnlyModified rf false)) k).pathsIdx
          = (getRf r1.1 k).pathsIdx := by
      intro k
      by_cases hk : k = RfTag.main
      · subst hk
        rw [getRf_modifyRf_same]
        rfl
      · rw [getRf_modifyRf_other _ _ hk]
    have hS3MainIdx := (a4 RfTag.main).trans ((hS2MainIdx RfTag.main).trans hMainIdx)
    have hTab1 : sF.dirNames = r4.1.dirNames := by
      have hx := (foldl_mergeStep_tables
        (List.range (count (flushFileNames r4.1).rfMain)) (flushFileNames r4.1)).1
      rw [h] at hx
      exact hx.trans (flushFileNames_tables r4.1).1
    have hTab2 : sF.fileNames = r4.1.fileNames := by
      have hx := (foldl_mergeStep_tables
        (List.range (count (flushFileNames r4.1).rfMain)) (flushFileNames r4.1)).2
      rw [h] at hx
      exact hx.trans (flushFileNames_tables r4.1).2
    have hs5Main : (getRf (flushFileNames r4.1) RfTag.main).pathsIdx
        = (wd.otherFiles.foldl (fun s it =>
            let sa := appendFileName s .main it
            let sb := modifyRf sa .main (fun rf => setStatusFlag rf UNKNOWN)
            modifyRf sb .main (fun rf => appendMergeParent rf 1))
            (modifyRf r1.1 .main (fun rf => setOnlyModified rf false))).flDirs
          ++ (wd.otherFiles.foldl (fun s it =>
            let sa := appendFileName s .main it
            let sb := modifyRf sa .main (fun rf => setStatusFlag rf UNKNOWN)
            modifyRf sb .main (fun rf => appendMergeParent rf 1))
            (modifyRf r1.1 .main (fun rf => setOnlyModified rf false))).flNames.take
              (wd.otherFiles.foldl (fun s it =>
                let sa := appendFileName s .main it
                let sb := modifyRf sa .main (fun rf => setStatusFlag rf UNKNOWN)
                modifyRf sb .main (fun rf => appendMergeParent rf 1))
                (modifyRf r1.1 .main (fun rf => setOnlyModified rf false))).flDirs.length := by
      by_cases hz2 : PS2 = []
      · rw [he2 hz2]
        rcases a3 with hbN | hbM
        · rw [flushNone hbN, hS3MainIdx]
          obtain ⟨hbd, hbn⟩ := a2.2.1 hbN
          rw [hbd, hbn]
          rfl
        · exact (flush_packed hbM).1
      · obtain ⟨hb4, hbuf4, hflush4⟩ := hne2 hz2
        rw [(flush_packed hb4).2.1 RfTag.main (by decide)]
        rcases a3 with hbN | hbM
        · have hfr4 := parseDiffFormat_frame hp2 (Or.inl hbN)
          rw [hfr4.1 RfTag.main (by decide), hS3MainIdx]
          obtain ⟨hbd, hbn⟩ := a2.2.1 hbN
          rw [hbd, hbn]
          rfl
        · exact hflush4 RfTag.main hbM (by decide)
    rw [a2.1, List.take_length] at hs5Main
    have hEPmain : entryPaths sF sF.rfMain = PS1 ++ wd.otherFiles := by
      refine (entryPaths_pack sF.rfMain sF (pm3.trans hs5Main) a2.1 a2.2.2
        ?_ ?_).trans ?_
      · rw [hTab1]
        exact hdp4
      · rw [hTab2]
        exact hfp4
      · exact a1.trans (by rw [hbufS2])
    have hEPcached : entryPaths sF sF.rfCached = PS2 := by
      by_cases hz2 : PS2 = []
      · rw [hz2]
        apply entryPaths_nil
        rw [pc3, he2 hz2]
        rcases a3 with hbN | hbM
        · rw [flushNone hbN]
          exact congrArg RevisionFile.pathsIdx hchain
        · exact ((flush_packed hbM).2.1 RfTag.cached (by decide)).trans
            (congrArg RevisionFile.pathsIdx hchain)
      · obtain ⟨hb4, hbuf4, -⟩ := hne2 hz2
        have hpi4 : sF.rfCached.pathsIdx = r4.1.flDirs ++ r4.1.flNames := by
          rw [pc3]
          have hx := (flush_packed hb4).1
          rw [hok4.1, List.take_length] at hx
          exact hx
        refine (entryPaths_pack sF.rfCached sF hpi4 hok4.1 hok4.2.2 ?_ ?_).trans ?_
        · rw [hTab1]
          exact List.take_length _
        · rw [hTab2]
          exact List.take_length _
        · have hcnot : ¬((wd.otherFiles.foldl (fun s it =>
              let sa := appendFileName s .main it
              let sb := modifyRf sa .main (fun rf => setStatusFlag rf UNKNOWN)
              modifyRf sb .main (fun rf => appendMergeParent rf 1))
              (modifyRf r1.1 .main (fun rf => setOnlyModified rf false))).flBound
                = some RfTag.cached) := by
            rcases a3 with hbN | hbM
            · rw [hbN]
              simp
            · rw [hbM]
              decide
          rw [if_neg hcnot, List.nil_append] at hbuf4
          exact hbuf4
    refine ⟨?_, ?_, ?_, ?_, ?_, ?_⟩
    · unfold count
      rw [pm2, pm3]
      omega
    · rw [pm1, pm2]
      omega
    · unfold count
      rw [pc2, pc3]
      omega
    · rw [pc1, pc2]
      omega
    · rw [hpp1, hEPmain]
      rfl
    · rw [hpp2, hEPcached]

/-- Concrete instance of `revisionFile_entries_align` on empty inputs,
discharging all three hypotheses. -/
theorem revisionFile_entries_align_witness :
    insertNewFiles [] [] [] = some emptyRF
    ∧ (count emptyRF = emptyRF.mergeParent.length
        ∧ emptyRF.status.length = emptyRF.mergeParent.length)
    ∧ parseDiffFormat (mkSession [] []) .main [] = some (mkSession [] [], 1)
    ∧ (insertNewFiles [] [] []
          = some ((flushFileNames (mkSession [] [])).rfMain)
        ∧ parsePaths []
            = some (entryPaths (flushFileNames (mkSession [] []))
                ((flushFileNames (mkSession [] [])).rfMain)))
    ∧ fakeWorkDirFull [] [] ⟨[], [], []⟩
        = some { mkSession [] [] with rfMain := ⟨[], false, [], [], []⟩ }
    ∧ count { mkSession [] [] with rfMain := ⟨[], false, [], [], []⟩ }.rfMain
        = { mkSession [] [] with
            rfMain := (⟨[], false, [], [], []⟩ : RevisionFile) }.rfMain.mergeParent.length
    ∧ (parsePaths []).map (· ++ ([] : List QStr))
        = some (entryPaths
            { mkSession [] [] with rfMain := ⟨[], false, [], [], []⟩ }
            { mkSession [] [] with
              rfMain := (⟨[], false, [], [], []⟩ : RevisionFile) }.rfMain)
    ∧ parsePaths []
        = some (entryPaths
            { mkSession [] [] with rfMain := ⟨[], false, [], [], []⟩ }
            { mkSession [] [] with
              rfMain := (⟨[], false, [], [], []⟩ : RevisionFile) }.rfCached) :=
  ⟨by decide,
   (revisionFile_entries_align [] [] [] ⟨[], [], []⟩ emptyRF (mkSession [] [])
       (mkSession [] [], 1)).1 (by decide),
   by decide,
   (revisionFile_entries_align [] [] [] ⟨[], [], []⟩ emptyRF (mkSession [] [])
       (mkSession [] [], 1)).2.1 (by decide),
   by decide,
   ((revisionFile_entries_align [] [] [] ⟨[], [], []⟩ emptyRF
       { mkSession [] [] with rfMain := ⟨[], false, [], [], []⟩ }
       (mkSession [] [], 1)).2.2 (by decide)).1,
   ((revisionFile_entries_align [] [] [] ⟨[], [], []⟩ emptyRF
       { mkSession [] [] with rfMain := ⟨[], false, [], [], []⟩ }
       (mkSession [] [], 1)).2.2 (by decide)).2.2.2.2.1,
   ((revisionFile_entries_align [] [] [] ⟨[], [], []⟩ emptyRF
       { mkSession [] [] with rfMain := ⟨[], false, [], [], []⟩ }
       (mkSession [] [], 1)).2.2 (by decide)).2.2.2.2.2⟩

end GitQlient
